import Mathlib

/-!
# Hospital triage demo: patient store and session store

A shallow embedding of `src/context/PatientContext.jsx` and
`src/context/AuthContext.jsx`, with the route guard of
`src/components/ProtectedRoute.jsx`, the form schema of `src/pages/AddPatient.jsx`
and the list filter of `src/pages/Dashboard.jsx`.

* JavaScript values that the two stores hold are JSON data: `null`, booleans,
  numbers, strings, arrays and plain objects.  Numbers are the integer-valued
  ones (ages), strings are sequences of Unicode scalar values, and an object is
  the list of its own enumerable properties in enumeration order.
* React state is passed explicitly: an action takes the `patients` value of the
  render it was created in and returns the value handed to `setPatients`.
* `uuidv4()`, `new Date().toLocaleString()` and `Math.random()` are inputs of
  the functions that call them.
-/

namespace TriageStore

/-! ## JavaScript values -/

/-- JSON-representable JavaScript values.  A number is integer-valued; a string
is a sequence of Unicode scalar values. -/
inductive JSVal where
  | null : JSVal
  | bool (b : Bool) : JSVal
  | num (n : Int) : JSVal
  | str (s : String) : JSVal
  | arr (xs : List JSVal) : JSVal
  | obj (ps : List (String × JSVal)) : JSVal

/-- A plain object: its own enumerable properties, in enumeration order. -/
abbrev JSObject := List (String × JSVal)

/-- A patient record is a plain object. -/
abbrev Patient := JSObject

/-- Property read `o.k`; `none` is JavaScript's `undefined`. -/
def getProp : JSObject → String → Option JSVal
  | [], _ => none
  | (k', v) :: t, k => if k' = k then some v else getProp t k

/-- Property definition `k: v` inside an object literal that already holds the
properties of `o` (as in `{...o, k: v}`): an existing key keeps its place and
takes the new value, a new key is appended. -/
def setProp : JSObject → String → JSVal → JSObject
  | [], k, v => [(k, v)]
  | (k', v') :: t, k, v => if k' = k then (k, v) :: t else (k', v') :: setProp t k v

/-- The test `p.id === id` for a string `id`: strict equality with a string
holds exactly when the left operand is that same string. -/
def idIs (p : Patient) (id : String) : Bool :=
  match getProp p "id" with
  | some (JSVal.str s) => s == id
  | _ => false

/-! ## Patient store actions (`PatientContext.jsx`) -/

/-- The object literal `{ ...patient, id: uuidv4(), admittedAt: new Date().toLocaleString() }`
of `addPatient`; `newId` is the value returned by `uuidv4()` and `now` the
timestamp string. -/
def newPatient (newId now : String) (patient : Patient) : Patient :=
  setProp (setProp patient "id" (JSVal.str newId)) "admittedAt" (JSVal.str now)

/-- The action `addPatient`: `setPatients([newPatient, ...patients])`. -/
def addPatient (newId now : String) (patient : Patient) (patients : List Patient) :
    List Patient :=
  newPatient newId now patient :: patients

/-- The action `removePatient`: `setPatients(patients.filter((p) => p.id !== id))`. -/
def removePatient (id : String) (patients : List Patient) : List Patient :=
  patients.filter (fun p => !(idIs p id))

/-- The lookup `getPatient`: `patients.find((p) => p.id === id)`; `none` is `undefined`. -/
def getPatient (id : String) (patients : List Patient) : Option Patient :=
  patients.find? (fun p => idIs p id)

/-- The `id` property of every record, in collection order. -/
def ids (patients : List Patient) : List (Option JSVal) :=
  patients.map (fun p => getProp p "id")

/-- What the specification's wording of `remove` describes: delete the first
record whose id matches and keep every other record. -/
def removeFirstMatch (id : String) : List Patient → List Patient
  | [] => []
  | p :: t => if idIs p id then t else p :: removeFirstMatch id t

/-- What the amended wording of `remove` describes: delete every record whose
id matches and keep the others in their order. -/
def removeEveryMatch (id : String) : List Patient → List Patient
  | [] => []
  | p :: t => if idIs p id then removeEveryMatch id t else p :: removeEveryMatch id t

/-! ## JSON text (`JSON.stringify` / `JSON.parse`) -/

/-- One hexadecimal digit, lower case, as `JSON.stringify` writes it. -/
def hexDigit (n : Nat) : Char :=
  if n < 10 then Char.ofNat (48 + n) else Char.ofNat (87 + n)

/-- Value of a hexadecimal digit of either case. -/
def hexVal (c : Char) : Option Nat :=
  if 48 ≤ c.toNat ∧ c.toNat ≤ 57 then some (c.toNat - 48)
  else if 97 ≤ c.toNat ∧ c.toNat ≤ 102 then some (c.toNat - 87)
  else if 65 ≤ c.toNat ∧ c.toNat ≤ 70 then some (c.toNat - 55)
  else none

/-- The escape sequence `QuoteJSONString` writes for one character. -/
def quoteChar (c : Char) : List Char :=
  if c = '"' then ['\\', '"']
  else if c = '\\' then ['\\', '\\']
  else if c = '\x08' then ['\\', 'b']
  else if c = '\x0c' then ['\\', 'f']
  else if c = '\n' then ['\\', 'n']
  else if c = '\r' then ['\\', 'r']
  else if c = '\t' then ['\\', 't']
  else if c.toNat < 32 then
    ['\\', 'u', '0', '0', hexDigit (c.toNat / 16), hexDigit (c.toNat % 16)]
  else [c]

/-- Characters of a string body with every character quoted. -/
def quoteChars : List Char → List Char
  | [] => []
  | c :: t => quoteChar c ++ quoteChars t

/-- The text `QuoteJSONString` produces: the quoted body between double quotes. -/
def quoteJSONString (s : String) : List Char :=
  '"' :: (quoteChars s.data ++ ['"'])

/-- Decimal digits of a natural number, most significant first, onto `acc`. -/
def natDigits : Nat → Nat → List Char → List Char
  | 0, _, acc => acc
  | fuel + 1, n, acc =>
    if n < 10 then Char.ofNat (48 + n) :: acc
    else natDigits fuel (n / 10) (Char.ofNat (48 + n % 10) :: acc)

/-- The text of `Number::toString` for a natural number. -/
def renderNat (n : Nat) : List Char := natDigits (n + 1) n []

/-- The text of `Number::toString` for an integer-valued number. -/
def renderInt (n : Int) : List Char :=
  if n < 0 then '-' :: renderNat n.natAbs else renderNat n.natAbs

mutual
/-- The text of `JSON.stringify(v)` (no indentation argument). -/
def stringifyVal : JSVal → List Char
  | JSVal.null => ['n', 'u', 'l', 'l']
  | JSVal.bool true => ['t', 'r', 'u', 'e']
  | JSVal.bool false => ['f', 'a', 'l', 's', 'e']
  | JSVal.num n => renderInt n
  | JSVal.str s => quoteJSONString s
  | JSVal.arr xs => '[' :: (stringifyElems xs ++ [']'])
  | JSVal.obj ps => '{' :: (stringifyProps ps ++ ['}'])
/-- Array elements separated by commas. -/
def stringifyElems : List JSVal → List Char
  | [] => []
  | [v] => stringifyVal v
  | v :: w :: t => stringifyVal v ++ ',' :: stringifyElems (w :: t)
/-- Object members `"key":value` separated by commas. -/
def stringifyProps : List (String × JSVal) → List Char
  | [] => []
  | [(k, v)] => quoteJSONString k ++ ':' :: stringifyVal v
  | (k, v) :: q :: t =>
    quoteJSONString k ++ ':' :: (stringifyVal v ++ ',' :: stringifyProps (q :: t))
end

/-- The string `JSON.stringify(v)`. -/
def JSON.stringify (v : JSVal) : String := String.mk (stringifyVal v)

/-- JSON white space. -/
def isWs (c : Char) : Bool := c == ' ' || c == '\t' || c == '\n' || c == '\r'

/-- Drop leading white space. -/
def skipWs : List Char → List Char
  | [] => []
  | c :: t => if isWs c then skipWs t else c :: t

/-- The character a single-character escape `\e` denotes. -/
def unescape (e : Char) : Option Char :=
  if e = '"' then some '"'
  else if e = '\\' then some '\\'
  else if e = '/' then some '/'
  else if e = 'b' then some '\x08'
  else if e = 'f' then some '\x0c'
  else if e = 'n' then some '\n'
  else if e = 'r' then some '\r'
  else if e = 't' then some '\t'
  else none

/-- The character a `\uXXXX` escape denotes; escapes of surrogate code units
denote no Unicode scalar value and are outside the modelled strings. -/
def hex4 (a b c d : Char) : Option Char :=
  match hexVal a, hexVal b, hexVal c, hexVal d with
  | some x, some y, some z, some w =>
    let n := ((x * 16 + y) * 16 + z) * 16 + w
    if n < 55296 ∨ 57343 < n then some (Char.ofNat n) else none
  | _, _, _, _ => none

/-- Prepend a character to the body of a successfully parsed string. -/
def pushChar (c : Char) : Option (List Char × List Char) → Option (List Char × List Char)
  | some (s, r) => some (c :: s, r)
  | none => none

/-- Parse a string body after its opening quote, up to and including the
closing quote; returns the characters denoted and the remaining input. -/
def parseStrBody : List Char → Option (List Char × List Char)
  | [] => none
  | c :: t =>
    if c = '"' then some ([], t)
    else if c = '\\' then
      match t with
      | [] => none
      | e :: t1 =>
        if e = 'u' then
          match t1 with
          | a :: b :: x :: d :: t2 =>
            match hex4 a b x d with
            | some ch => pushChar ch (parseStrBody t2)
            | none => none
          | _ => none
        else
          match unescape e with
          | some ch => pushChar ch (parseStrBody t1)
          | none => none
    else if c.toNat < 32 then none
    else pushChar c (parseStrBody t)

/-- Value of a decimal digit. -/
def digitVal (c : Char) : Option Nat :=
  if 48 ≤ c.toNat ∧ c.toNat ≤ 57 then some (c.toNat - 48) else none

/-- Read further decimal digits onto the accumulated value. -/
def parseDigits : Nat → List Char → Nat × List Char
  | acc, [] => (acc, [])
  | acc, c :: t =>
    match digitVal c with
    | some d => parseDigits (acc * 10 + d) t
    | none => (acc, c :: t)

/-- The integer part of a JSON number: `0`, or a non-zero digit followed by digits. -/
def parseNat : List Char → Option (Nat × List Char)
  | [] => none
  | c :: t =>
    match digitVal c with
    | none => none
    | some d =>
      if d = 0 then
        match t with
        | [] => some (0, [])
        | c1 :: t1 => if (digitVal c1).isSome then none else some (0, c1 :: t1)
      else some (parseDigits d t)

/-- No fraction or exponent follows: those denote numbers outside the
integer-valued ones modelled here. -/
def noFraction : List Char → Bool
  | [] => true
  | c :: _ => !(c == '.' || c == 'e' || c == 'E')

/-- Parse a JSON number with an optional minus sign. -/
def parseNumber : List Char → Option (Int × List Char)
  | [] => none
  | c :: t =>
    if c = '-' then
      match parseNat t with
      | some (n, r) => if noFraction r then some (-(n : Int), r) else none
      | none => none
    else
      match parseNat (c :: t) with
      | some (n, r) => if noFraction r then some ((n : Int), r) else none
      | none => none

/-- Consume the expected characters of a literal token. -/
def dropLit : List Char → List Char → Option (List Char)
  | [], cs => some cs
  | _ :: _, [] => none
  | e :: es, c :: cs => if e = c then dropLit es cs else none

/-- Build the object JSON.parse creates from members read in text order: a
repeated key keeps its first position and takes the last value. -/
def membersToObject (ps : List (String × JSVal)) : JSObject :=
  ps.foldl (fun o kv => setProp o kv.1 kv.2) []

mutual
/-- Parse one JSON value; `fuel` bounds the recursion depth. -/
def parseValue : Nat → List Char → Option (JSVal × List Char)
  | 0, _ => none
  | fuel + 1, cs =>
    match skipWs cs with
    | [] => none
    | c :: t =>
      if c = '{' then
        match skipWs t with
        | [] => none
        | c1 :: t1 =>
          if c1 = '}' then some (JSVal.obj [], t1)
          else
            match parseMembers fuel (c1 :: t1) with
            | some (ps, r) => some (JSVal.obj (membersToObject ps), r)
            | none => none
      else if c = '[' then
        match skipWs t with
        | [] => none
        | c1 :: t1 =>
          if c1 = ']' then some (JSVal.arr [], t1)
          else
            match parseElems fuel (c1 :: t1) with
            | some (xs, r) => some (JSVal.arr xs, r)
            | none => none
      else if c = '"' then
        match parseStrBody t with
        | some (s, r) => some (JSVal.str (String.mk s), r)
        | none => none
      else if c = 't' then
        match dropLit ['r', 'u', 'e'] t with
        | some r => some (JSVal.bool true, r)
        | none => none
      else if c = 'f' then
        match dropLit ['a', 'l', 's', 'e'] t with
        | some r => some (JSVal.bool false, r)
        | none => none
      else if c = 'n' then
        match dropLit ['u', 'l', 'l'] t with
        | some r => some (JSVal.null, r)
        | none => none
      else
        match parseNumber (c :: t) with
        | some (n, r) => some (JSVal.num n, r)
        | none => none
/-- Parse array elements up to and including the closing bracket. -/
def parseElems : Nat → List Char → Option (List JSVal × List Char)
  | 0, _ => none
  | fuel + 1, cs =>
    match parseValue fuel cs with
    | none => none
    | some (v, r) =>
      match skipWs r with
      | [] => none
      | d :: r1 =>
        if d = ',' then
          match parseElems fuel r1 with
          | some (xs, r2) => some (v :: xs, r2)
          | none => none
        else if d = ']' then some ([v], r1)
        else none
/-- Parse object members up to and including the closing brace. -/
def parseMembers : Nat → List Char → Option (List (String × JSVal) × List Char)
  | 0, _ => none
  | fuel + 1, cs =>
    match skipWs cs with
    | [] => none
    | q :: t =>
      if q = '"' then
        match parseStrBody t with
        | none => none
        | some (k, r) =>
          match skipWs r with
          | [] => none
          | col :: r1 =>
            if col = ':' then
              match parseValue fuel r1 with
              | none => none
              | some (v, r2) =>
                match skipWs r2 with
                | [] => none
                | d :: r3 =>
                  if d = ',' then
                    match parseMembers fuel r3 with
                    | some (ps, r4) => some ((String.mk k, v) :: ps, r4)
                    | none => none
                  else if d = '}' then some ([(String.mk k, v)], r3)
                  else none
            else none
      else none
end

/-- The call `JSON.parse(s)`: the value the whole text denotes.  It is `none`
when JSON.parse throws a SyntaxError, and also when the text is JSON that
denotes a value outside the modelled ones (a number with a fraction or an
exponent, a string with an escaped surrogate); `jsonValid` below tells the
two apart. -/
def JSON.parse (s : String) : Option JSVal :=
  match parseValue (s.data.length + 1) s.data with
  | some (v, r) => if skipWs r = [] then some v else none
  | none => none

mutual
/-- Every object inside the value has pairwise distinct keys, as every
JavaScript object has. -/
def wfVal : JSVal → Bool
  | JSVal.null => true
  | JSVal.bool _ => true
  | JSVal.num _ => true
  | JSVal.str _ => true
  | JSVal.arr xs => wfElems xs
  | JSVal.obj ps => decide ((ps.map Prod.fst).Nodup) && wfProps ps
/-- Every element is well formed. -/
def wfElems : List JSVal → Bool
  | [] => true
  | v :: t => wfVal v && wfElems t
/-- Every property value is well formed. -/
def wfProps : List (String × JSVal) → Bool
  | [] => true
  | (_, v) :: t => wfVal v && wfProps t
end

/-! ## JSON text: which texts `JSON.parse` accepts -/

/-- Where a reader of JSON text stands between two characters. -/
inductive JState where
  /-- A value must start here. -/
  | value : JState
  /-- Just after `[`: a value or `]`. -/
  | valueOrClose : JState
  /-- Just after the opening brace: a key or the closing brace. -/
  | keyOrClose : JState
  /-- Just after a comma inside an object: a key. -/
  | key : JState
  /-- Just after a key: a colon. -/
  | colon : JState
  /-- Just after a complete value. -/
  | done : JState
  /-- Inside a string; `isKey` tells a key from a value. -/
  | str (isKey : Bool) : JState
  /-- Just after a backslash inside a string. -/
  | esc (isKey : Bool) : JState
  /-- Inside a `\u` escape with `more + 1` hexadecimal digits to come. -/
  | hex (isKey : Bool) (more : Nat) : JState
  /-- Inside `true`, `false` or `null` with these characters to come. -/
  | lit (rest : List Char) : JState
  /-- Just after the minus sign of a number. -/
  | minus : JState
  /-- Just after the integer part `0`. -/
  | zero : JState
  /-- Inside an integer part that starts with a non-zero digit. -/
  | int : JState
  /-- Just after the decimal point. -/
  | dot : JState
  /-- Inside the fraction digits. -/
  | frac : JState
  /-- Just after `e` or `E`. -/
  | expMark : JState
  /-- Just after the sign of the exponent. -/
  | expSign : JState
  /-- Inside the exponent digits. -/
  | exp : JState

/-- A decimal digit. -/
def isDigit (c : Char) : Bool := decide (48 ≤ c.toNat ∧ c.toNat ≤ 57)

/-- The step taken after a complete value on a character: white space, a
comma, or the bracket that closes the innermost open array or object. The
stack lists the open containers, innermost first, `true` for an object. -/
def afterValue (stack : List Bool) (c : Char) : Option (JState × List Bool) :=
  if isWs c then some (JState.done, stack)
  else if c = ',' then
    match stack with
    | true :: _ => some (JState.key, stack)
    | false :: _ => some (JState.value, stack)
    | [] => none
  else if c = ']' then
    match stack with
    | false :: s => some (JState.done, s)
    | _ => none
  else if c = '}' then
    match stack with
    | true :: s => some (JState.done, s)
    | _ => none
  else none

/-- The step taken where a value must start. -/
def startValue (stack : List Bool) (c : Char) : Option (JState × List Bool) :=
  if isWs c then some (JState.value, stack)
  else if c = '{' then some (JState.keyOrClose, true :: stack)
  else if c = '[' then some (JState.valueOrClose, false :: stack)
  else if c = '"' then some (JState.str false, stack)
  else if c = '-' then some (JState.minus, stack)
  else if c = '0' then some (JState.zero, stack)
  else if isDigit c then some (JState.int, stack)
  else if c = 't' then some (JState.lit ['r', 'u', 'e'], stack)
  else if c = 'f' then some (JState.lit ['a', 'l', 's', 'e'], stack)
  else if c = 'n' then some (JState.lit ['u', 'l', 'l'], stack)
  else none

/-- One character of JSON text; `none` when the character cannot occur here. -/
def jsonStep (st : JState) (stack : List Bool) (c : Char) : Option (JState × List Bool) :=
  match st with
  | JState.value => startValue stack c
  | JState.valueOrClose =>
    if isWs c then some (JState.valueOrClose, stack)
    else if c = ']' then afterValue stack c
    else startValue stack c
  | JState.keyOrClose =>
    if isWs c then some (JState.keyOrClose, stack)
    else if c = '}' then afterValue stack c
    else if c = '"' then some (JState.str true, stack)
    else none
  | JState.key =>
    if isWs c then some (JState.key, stack)
    else if c = '"' then some (JState.str true, stack)
    else none
  | JState.colon =>
    if isWs c then some (JState.colon, stack)
    else if c = ':' then some (JState.value, stack)
    else none
  | JState.done => afterValue stack c
  | JState.str isKey =>
    if c = '"' then some (if isKey then JState.colon else JState.done, stack)
    else if c = '\\' then some (JState.esc isKey, stack)
    else if c.toNat < 32 then none
    else some (JState.str isKey, stack)
  | JState.esc isKey =>
    if c = 'u' then some (JState.hex isKey 3, stack)
    else if (unescape c).isSome then some (JState.str isKey, stack)
    else none
  | JState.hex isKey more =>
    if (hexVal c).isSome then
      match more with
      | 0 => some (JState.str isKey, stack)
      | m + 1 => some (JState.hex isKey m, stack)
    else none
  | JState.lit rest =>
    match rest with
    | [] => none
    | e :: es =>
      if c = e then
        match es with
        | [] => some (JState.done, stack)
        | _ :: _ => some (JState.lit es, stack)
      else none
  | JState.minus =>
    if c = '0' then some (JState.zero, stack)
    else if isDigit c then some (JState.int, stack)
    else none
  | JState.zero =>
    if c = '.' then some (JState.dot, stack)
    else if c = 'e' ∨ c = 'E' then some (JState.expMark, stack)
    else afterValue stack c
  | JState.int =>
    if isDigit c then some (JState.int, stack)
    else if c = '.' then some (JState.dot, stack)
    else if c = 'e' ∨ c = 'E' then some (JState.expMark, stack)
    else afterValue stack c
  | JState.dot => if isDigit c then some (JState.frac, stack) else none
  | JState.frac =>
    if isDigit c then some (JState.frac, stack)
    else if c = 'e' ∨ c = 'E' then some (JState.expMark, stack)
    else afterValue stack c
  | JState.expMark =>
    if c = '+' ∨ c = '-' then some (JState.expSign, stack)
    else if isDigit c then some (JState.exp, stack)
    else none
  | JState.expSign => if isDigit c then some (JState.exp, stack) else none
  | JState.exp =>
    if isDigit c then some (JState.exp, stack)
    else afterValue stack c

/-- At the end of the text: a complete value, with nothing left open. -/
def jsonComplete : JState → List Bool → Bool
  | JState.done, [] => true
  | JState.zero, [] => true
  | JState.int, [] => true
  | JState.frac, [] => true
  | JState.exp, [] => true
  | _, _ => false

/-- Read the text from a given state. -/
def jsonRun : JState → List Bool → List Char → Bool
  | st, stack, [] => jsonComplete st stack
  | st, stack, c :: t =>
    match jsonStep st stack c with
    | some (st', stack') => jsonRun st' stack' t
    | none => false

/-- Whether the text is JSON: exactly the texts on which `JSON.parse` does not
throw a SyntaxError. -/
def jsonValid (s : String) : Bool := jsonRun JState.value [] s.data

/-- Whether `JSON.parse(s)` throws. -/
def JSON.throws (s : String) : Bool := !(jsonValid s)

/-! ## Local storage -/

/-- Browser local storage: the string stored under each key; `none` when the
key has no entry, for which `getItem` returns `null`. -/
abbrev Storage := String → Option String

/-- The call `localStorage.getItem(key)`. -/
def getItem (ls : Storage) (key : String) : Option String := ls key

/-- The call `localStorage.setItem(key, value)`. -/
def setItem (ls : Storage) (key value : String) : Storage :=
  fun k => if k = key then some value else ls k

/-- The call `localStorage.removeItem(key)`. -/
def removeItem (ls : Storage) (key : String) : Storage :=
  fun k => if k = key then none else ls k

/-- Truthiness of a `getItem` result: `null` and the empty string are falsy,
every other string is truthy. -/
def truthy : Option String → Bool
  | none => false
  | some s => s != ""

/-! ## Patient store: initial read, persistence, seeding (`PatientContext.jsx`) -/

/-- The array value of a collection of records. -/
def collectionValue (patients : List Patient) : JSVal :=
  JSVal.arr (patients.map JSVal.obj)

/-- The lazy initial state
`storedPatients ? JSON.parse(storedPatients) : []`; `none` when `JSON.parse`
is `none`: the call throws, or the stored value is outside the modelled ones. -/
def initialPatients (ls : Storage) : Option JSVal :=
  match getItem ls "mq_patients" with
  | some s => if truthy (some s) then JSON.parse s else some (JSVal.arr [])
  | none => some (JSVal.arr [])

/-- The persistence effect
`localStorage.setItem("mq_patients", JSON.stringify(patients))`. -/
def persistPatients (patients : JSVal) (ls : Storage) : Storage :=
  setItem ls "mq_patients" (JSON.stringify patients)

/-- The guard `!storedPatients` of the seed effect: whether the fetch is issued. -/
def seedFetchIssued (ls : Storage) : Bool :=
  !(truthy (getItem ls "mq_patients"))

/-- One user object of the seed response, with the fields the transformation reads. -/
structure SeedUser where
  /-- Field `login.uuid`. -/
  loginUuid : String
  /-- Field `name.first`. -/
  nameFirst : String
  /-- Field `name.last`. -/
  nameLast : String
  /-- Field `dob.age`. -/
  dobAge : Int
  /-- Field `gender`. -/
  gender : String
  /-- Field `picture.large`. -/
  pictureLarge : String

/-- The number literal `0.7`: the exact value of the double nearest to 7/10. -/
def criticalThreshold : ℚ := 3152519739159347 / 4503599627370496

/-- The callback of `data.results.map`: one user object becomes one patient
record; `draw` is the value of `Math.random()` and `now` the timestamp string. -/
def formatUser (draw : ℚ) (now : String) (u : SeedUser) : Patient :=
  [("id", JSVal.str u.loginUuid),
   ("name", JSVal.str (u.nameFirst ++ " " ++ u.nameLast)),
   ("age", JSVal.num u.dobAge),
   ("gender", JSVal.str u.gender),
   ("priority", JSVal.str (if draw > criticalThreshold then "Critical" else "Stable")),
   ("symptoms", JSVal.str "Initial checkup required"),
   ("admittedAt", JSVal.str now),
   ("img", JSVal.str u.pictureLarge)]

/-- The call `data.results.map(...)` from the `k`-th callback on: the `i`-th
callback takes the `i`-th random draw and the `i`-th clock reading. -/
def formatFrom (rand : Nat → ℚ) (clock : Nat → String) : Nat → List SeedUser → List Patient
  | _, [] => []
  | k, u :: t => formatUser (rand k) (clock k) u :: formatFrom rand clock (k + 1) t

/-- The seed transformation: the array `formatted` handed to `setPatients`. -/
def seedTransform (rand : Nat → ℚ) (clock : Nat → String) (results : List SeedUser) :
    List Patient :=
  formatFrom rand clock 0 results

/-- One store action. -/
inductive StoreOp where
  | add (newId now : String) (patient : Patient) : StoreOp
  | remove (id : String) : StoreOp

/-- The collection after one action. -/
def applyOp (patients : List Patient) : StoreOp → List Patient
  | StoreOp.add newId now patient => addPatient newId now patient patients
  | StoreOp.remove id => removePatient id patients

/-- The collection after a sequence of actions, each taking the collection the
previous one produced. -/
def applyOps (patients : List Patient) (ops : List StoreOp) : List Patient :=
  ops.foldl applyOp patients

/-- The input record of an `add` action is a well-formed object. -/
def wfOp : StoreOp → Bool
  | StoreOp.add _ _ patient => wfVal (JSVal.obj patient)
  | StoreOp.remove _ => true

/-! ## Session store (`AuthContext.jsx`) -/

/-- The two state cells of `AuthProvider`; `user = JSVal.null` is the absence
of a logged-in user. -/
structure AuthState where
  /-- State cell `user`. -/
  user : JSVal
  /-- State cell `loading`. -/
  loading : Bool

/-- The initial state: `useState(null)` and `useState(true)`. -/
def authInit : AuthState := { user := JSVal.null, loading := true }

/-- The session restoration effect; `none` when `JSON.parse` is `none`: the
call throws, or the restored user is a value outside the modelled ones (see
`loadingAfterRestore` for the `loading` cell in every case). -/
def restoreSession (ls : Storage) (st : AuthState) : Option AuthState :=
  match getItem ls "mq_user" with
  | some s =>
    if truthy (some s) then
      match JSON.parse s with
      | some u => some { user := u, loading := false }
      | none => none
    else some { st with loading := false }
  | none => some { st with loading := false }

/-- The action `login`. -/
def login (userData : JSVal) (st : AuthState) (ls : Storage) : AuthState × Storage :=
  ({ st with user := userData }, setItem ls "mq_user" (JSON.stringify userData))

/-- The action `logout`. -/
def logout (st : AuthState) (ls : Storage) : AuthState × Storage :=
  ({ st with user := JSVal.null }, removeItem ls "mq_user")

/-- A restart: the provider mounts afresh with its initial state and the
restoration effect runs against the storage left behind. -/
def restart (ls : Storage) : Option AuthState :=
  restoreSession ls authInit

/-! ## Concrete data used in examples -/

/-- A storage with no entries. -/
def emptyStorage : Storage := fun _ => none

/-- Two records that carry the same id. -/
def twinRecords : List Patient :=
  [[("id", JSVal.str "a"), ("name", JSVal.str "Ann")],
   [("id", JSVal.str "a"), ("name", JSVal.str "Bob")]]

/-- A seed response of two users. -/
def twoUsers : List SeedUser :=
  [{ loginUuid := "u1", nameFirst := "Ada", nameLast := "Low", dobAge := 41,
     gender := "female", pictureLarge := "ada.jpg" },
   { loginUuid := "u2", nameFirst := "Max", nameLast := "Roe", dobAge := 67,
     gender := "male", pictureLarge := "max.jpg" }]

/-- The collection seeded from `twoUsers`. -/
def seededTwo : List Patient :=
  seedTransform (fun k => if k = 0 then 9 / 10 else 1 / 10) (fun _ => "1/1/2025, 9:00:00 AM")
    twoUsers

/-- The form input of the end-to-end scenario, with the avatar `onSubmit` adds. -/
def joInput : Patient :=
  [("name", JSVal.str "Jo"), ("age", JSVal.num 30), ("gender", JSVal.str "Other"),
   ("symptoms", JSVal.str "fever for days"), ("priority", JSVal.str "Stable"),
   ("img", JSVal.str "https://cdn-icons-png.flaticon.com/512/3135/3135715.png")]

/-! ## Session store: runs of actions -/

/-- One session action. -/
inductive AuthOp where
  | login (userData : JSVal) : AuthOp
  | logout : AuthOp

/-- The session state and storage after one action. -/
def applyAuthOp (s : AuthState × Storage) : AuthOp → AuthState × Storage
  | AuthOp.login userData => login userData s.1 s.2
  | AuthOp.logout => logout s.1 s.2

/-- The session state and storage after a sequence of actions. -/
def applyAuthOps (s : AuthState × Storage) (ops : List AuthOp) : AuthState × Storage :=
  ops.foldl applyAuthOp s

/-- The `loading` cell once the restoration effect has run or has thrown:
`setLoading(false)` is reached unless the stored text is truthy and
`JSON.parse` throws on it, in which case no setter has been called. -/
def loadingAfterRestore (ls : Storage) (st : AuthState) : Bool :=
  match getItem ls "mq_user" with
  | some s =>
    if truthy (some s) then
      if JSON.throws s then st.loading else false
    else false
  | none => false

/-! ## Patient store: actions followed by the persistence effect -/

/-- The `patients` state cell together with local storage. -/
structure PatientStore where
  /-- State cell `patients`. -/
  patients : List Patient
  /-- Local storage. -/
  storage : Storage

/-- The persistence effect `useEffect(..., [patients])` of the render that
follows a `setPatients` call. -/
def persistEffect (s : PatientStore) : PatientStore :=
  { s with storage := persistPatients (collectionValue s.patients) s.storage }

/-- One action and the render that follows it: both actions hand `setPatients`
a freshly built array, so the dependency `[patients]` has changed and the
persistence effect runs. -/
def dispatch (s : PatientStore) (op : StoreOp) : PatientStore :=
  persistEffect { s with patients := applyOp s.patients op }

/-- A sequence of actions, each followed by its render. -/
def dispatchAll (s : PatientStore) (ops : List StoreOp) : PatientStore :=
  ops.foldl dispatch s

/-! ## Patient store: the seed promise chain -/

/-- A settled promise. -/
inductive Settled (α : Type) where
  | fulfilled (value : α) : Settled α
  | rejected : Settled α

/-- The method `.then(f)`: `f` runs on fulfilment and settles the result; a
callback that throws returns `Settled.rejected`. -/
def Settled.andThen {α β : Type} : Settled α → (α → Settled β) → Settled β
  | Settled.fulfilled a, f => f a
  | Settled.rejected, _ => Settled.rejected

/-- The method `.catch(h)` for a handler that returns normally with `value`. -/
def Settled.orCatch {α : Type} : Settled α → α → Settled α
  | Settled.fulfilled a, _ => Settled.fulfilled a
  | Settled.rejected, value => Settled.fulfilled value

/-- The parsed response body as the second `.then` callback reads it:
`results` is `none` when `data.results` is not an array, in which case the
call `data.results.map(...)` throws a TypeError. -/
structure SeedData where
  /-- Property `results`. -/
  results : Option (List SeedUser)

/-- How the seed fetch goes: the request is rejected, the body is not JSON
(so `res.json()` is rejected), or the body parses. -/
inductive FetchOutcome where
  | networkError : FetchOutcome
  | invalidJson : FetchOutcome
  | body (data : SeedData) : FetchOutcome

/-- The failures of the seed fetch: the request is rejected, the response
cannot be parsed, or the parsed body lacks the results list. -/
def fetchFailed : FetchOutcome → Bool
  | FetchOutcome.networkError => true
  | FetchOutcome.invalidJson => true
  | FetchOutcome.body data => data.results.isNone

/-- The promise `fetch(url).then((res) => res.json())`. -/
def fetchJson : FetchOutcome → Settled SeedData
  | FetchOutcome.networkError => Settled.rejected
  | FetchOutcome.invalidJson =>
    (Settled.fulfilled ()).andThen (fun _ => Settled.rejected)
  | FetchOutcome.body data =>
    (Settled.fulfilled ()).andThen (fun _ => Settled.fulfilled data)

/-- The second `.then` callback: it maps the results and calls
`setPatients(formatted)`; the value is the array handed to `setPatients`. -/
def adoptSeed (rand : Nat → ℚ) (clock : Nat → String) (data : SeedData) :
    Settled (Option (List Patient)) :=
  match data.results with
  | some results => Settled.fulfilled (some (seedTransform rand clock results))
  | none => Settled.rejected

/-- The whole chain `fetch(...).then(...).then(...).catch(...)`; the `.catch`
handler logs and calls no setter, which is the value `none`. -/
def seedChain (rand : Nat → ℚ) (clock : Nat → String) (outcome : FetchOutcome) :
    Settled (Option (List Patient)) :=
  ((fetchJson outcome).andThen (adoptSeed rand clock)).orCatch none

/-- The `patients` state cell after the chain has settled. -/
def seedSettle (rand : Nat → ℚ) (clock : Nat → String) (outcome : FetchOutcome)
    (patients : List Patient) : List Patient :=
  match seedChain rand clock outcome with
  | Settled.fulfilled (some formatted) => formatted
  | Settled.fulfilled none => patients
  | Settled.rejected => patients

/-- The seed effect at startup against storage `ls`, once the fetch (if it was
issued) has settled. -/
def seedEffect (rand : Nat → ℚ) (clock : Nat → String) (ls : Storage)
    (outcome : FetchOutcome) (patients : List Patient) : List Patient :=
  if seedFetchIssued ls then seedSettle rand clock outcome patients else patients

/-! ## Route guarding (`AuthContext.jsx` render, `ProtectedRoute.jsx`) -/

/-- JavaScript truthiness of a JSON value. -/
def jsTruthy : JSVal → Bool
  | JSVal.null => false
  | JSVal.bool b => b
  | JSVal.num n => n != 0
  | JSVal.str s => s != ""
  | JSVal.arr _ => true
  | JSVal.obj _ => true

/-- What a wrapper component returns. -/
inductive View where
  | nothing : View
  | children : View
  | navigate (target : String) : View

/-- The render of `AuthProvider`: `{!loading && children}`. -/
def authProviderRender (st : AuthState) : View :=
  if !st.loading then View.children else View.nothing

/-- The component `ProtectedRoute`. -/
def protectedRoute (user : JSVal) : View :=
  if !(jsTruthy user) then View.navigate "/" else View.children

/-! ## The admission form (`AddPatient.jsx`) -/

/-- A JavaScript number as a form field holds it after the cast of
`yup.number()`: a finite value, `NaN` or an infinity. -/
inductive JSNumber where
  | finite (q : ℚ) : JSNumber
  | nan : JSNumber
  | posInfinity : JSNumber
  | negInfinity : JSNumber

/-- The values the resolver validates; `none` is `undefined` or `null`. -/
structure PatientForm where
  /-- Field `name`. -/
  name : Option String
  /-- Field `age`. -/
  age : Option JSNumber
  /-- Field `gender`. -/
  gender : Option String
  /-- Field `symptoms`. -/
  symptoms : Option String
  /-- Field `priority`. -/
  priority : Option String

/-- The property `length` of a string: its number of UTF-16 code units. -/
def jsLength (s : String) : Nat :=
  (s.data.map (fun c => if c.toNat < 65536 then 1 else 2)).sum

/-- The test `.required()` of `yup.string()`: a value is present and is not
the empty string. -/
def stringRequired : Option String → Bool
  | some s => s != ""
  | none => false

/-- The test `.min(n)` of `yup.string()`; an absent value passes. -/
def stringMin (n : Nat) : Option String → Bool
  | some s => decide (n ≤ jsLength s)
  | none => true

/-- The type check of `yup.number()`: `NaN` is not a number value. -/
def numberType : Option JSNumber → Bool
  | some JSNumber.nan => false
  | _ => true

/-- The test `.positive()`: the value is greater than 0; an absent value passes. -/
def numberPositive : Option JSNumber → Bool
  | some (JSNumber.finite q) => decide (0 < q)
  | some JSNumber.posInfinity => true
  | some JSNumber.negInfinity => false
  | some JSNumber.nan => false
  | none => true

/-- The test `.integer()`: `Number.isInteger(value)`; an absent value passes. -/
def numberInteger : Option JSNumber → Bool
  | some (JSNumber.finite q) => q.den == 1
  | some _ => false
  | none => true

/-- The test `.required()` of `yup.number()`: a value is present. -/
def numberRequired : Option JSNumber → Bool
  | some _ => true
  | none => false

/-- The schema of `AddPatient.jsx`: every test of every field passes. -/
def schemaAccepts (f : PatientForm) : Bool :=
  stringRequired f.name
  && (numberType f.age && numberPositive f.age && numberInteger f.age && numberRequired f.age)
  && stringRequired f.gender
  && (stringMin 5 f.symptoms && stringRequired f.symptoms)
  && stringRequired f.priority

/-- The object the resolver hands to `onSubmit` when the schema accepts. -/
def validatedData (f : PatientForm) : Option Patient :=
  if schemaAccepts f then
    match f.name, f.age, f.gender, f.symptoms, f.priority with
    | some n, some (JSNumber.finite q), some g, some s, some p =>
      some [("name", JSVal.str n), ("age", JSVal.num q.num), ("gender", JSVal.str g),
        ("symptoms", JSVal.str s), ("priority", JSVal.str p)]
    | _, _, _, _, _ => none
  else none

/-- The default avatar `onSubmit` appends. -/
def avatarUrl : String := "https://cdn-icons-png.flaticon.com/512/3135/3135715.png"

/-- The handler `onSubmit`: `addPatient({ ...data, img: avatarUrl })`. -/
def onSubmit (newId now : String) (data : Patient) (patients : List Patient) : List Patient :=
  addPatient newId now (setProp data "img" (JSVal.str avatarUrl)) patients

/-- The wrapper `handleSubmit(onSubmit)`: `onSubmit` is called with the
validated data when the resolver reports no error; `none` when it is not called. -/
def handleSubmit (newId now : String) (f : PatientForm) (patients : List Patient) :
    Option (List Patient) :=
  match validatedData f with
  | some data => some (onSubmit newId now data patients)
  | none => none

/-! ## The dashboard filter (`Dashboard.jsx`) -/

/-- Whether the text begins with the pattern. -/
def startsWith : List Char → List Char → Bool
  | _, [] => true
  | [], _ :: _ => false
  | c :: t, d :: ds => c == d && startsWith t ds

/-- The method `String.prototype.includes`: the pattern occurs in the text. -/
def includesChars : List Char → List Char → Bool
  | [], pat => startsWith [] pat
  | c :: t, pat => startsWith (c :: t) pat || includesChars t pat

/-- The expression `patient.name.toLowerCase()`; `lower` is the platform's
`toLowerCase`.  It throws a TypeError (`none`) when `name` is not a string. -/
def lowerName (lower : String → String) (p : Patient) : Option String :=
  match getProp p "name" with
  | some (JSVal.str s) => some (lower s)
  | _ => none

/-- The test `patient.priority === filterStatus` for a string `filterStatus`. -/
def priorityIs (p : Patient) (filterStatus : String) : Bool :=
  match getProp p "priority" with
  | some (JSVal.str s) => s == filterStatus
  | _ => false

/-- The callback of `patients.filter` in `Dashboard`; `none` when it throws. -/
def matchesPatient (lower : String → String) (searchTerm filterStatus : String)
    (p : Patient) : Option Bool :=
  match lowerName lower p with
  | some n =>
    some (includesChars n.data (lower searchTerm).data
      && (filterStatus == "All" || priorityIs p filterStatus))
  | none => none

/-- The method `Array.prototype.filter` with a callback that may throw. -/
def filterThrowing (f : Patient → Option Bool) : List Patient → Option (List Patient)
  | [] => some []
  | p :: t =>
    match f p with
    | none => none
    | some b =>
      match filterThrowing f t with
      | none => none
      | some r => some (if b then p :: r else r)

/-- The value `filteredPatients` of `Dashboard`; `none` when the render throws. -/
def filteredPatients (lower : String → String) (patients : List Patient)
    (searchTerm filterStatus : String) : Option (List Patient) :=
  filterThrowing (matchesPatient lower searchTerm filterStatus) patients

/-- What the claim describes: the patient has a name whose lower-cased form
contains the lower-cased search text, and its priority equals the filter status
or the status is `"All"`. -/
def dashboardShows (lower : String → String) (searchTerm filterStatus : String)
    (p : Patient) : Bool :=
  (match getProp p "name" with
    | some (JSVal.str s) => includesChars (lower s).data (lower searchTerm).data
    | _ => false)
  && (filterStatus == "All" || priorityIs p filterStatus)

/-- Lower-casing of the ASCII letters, used in examples. -/
def asciiLower (s : String) : String := String.mk (s.data.map Char.toLower)

/-! ## More concrete data -/

/-- A storage whose `mq_user` entry is not JSON text. -/
def corruptSession : Storage := setItem emptyStorage "mq_user" "\x7b"

/-- A storage whose `mq_user` entry is the JSON text of a number with a fraction. -/
def fractionSession : Storage := setItem emptyStorage "mq_user" "1.5"

/-- A storage whose `mq_user` entry is the JSON text of the number 0. -/
def zeroSession : Storage := setItem emptyStorage "mq_user" "0"

/-- A collection with a record that has no `name`. -/
def namelessList : List Patient :=
  [[("id", JSVal.str "x1"), ("priority", JSVal.str "Stable")]]

/-- The form input of the end-to-end scenario. -/
def joForm : PatientForm :=
  { name := some "Jo", age := some (JSNumber.finite 30), gender := some "Other",
    symptoms := some "fever for days", priority := some "Stable" }

/-! # Theorems -/

/-! ## Properties of objects and of the collection actions -/

theorem getProp_setProp_same (o : JSObject) (k : String) (v : JSVal) :
    getProp (setProp o k v) k = some v := by
  induction o with
  | nil => simp [setProp, getProp]
  | cons hd t ih =>
    obtain ⟨k', v'⟩ := hd
    by_cases h : k' = k
    · simp [setProp, getProp, h]
    · simp [setProp, getProp, h, ih]

theorem getProp_setProp_other (o : JSObject) (k j : String) (v : JSVal) (hne : j ≠ k) :
    getProp (setProp o k v) j = getProp o j := by
  have hkj : ¬ k = j := fun e => hne e.symm
  induction o with
  | nil => simp [setProp, getProp, hkj]
  | cons hd t ih =>
    obtain ⟨k', v'⟩ := hd
    by_cases h : k' = k
    · subst h
      simp [setProp, getProp, hkj]
    · by_cases h2 : k' = j
      · subst h2
        simp [setProp, getProp, h]
      · simp [setProp, getProp, h, h2, ih]

theorem getProp_newPatient_id (newId now : String) (p : Patient) :
    getProp (newPatient newId now p) "id" = some (JSVal.str newId) := by
  unfold newPatient
  rw [getProp_setProp_other _ _ _ _ (by decide), getProp_setProp_same]

theorem idIs_newPatient (newId now : String) (p : Patient) :
    idIs (newPatient newId now p) newId = true := by
  simp [idIs, getProp_newPatient_id]

theorem idIs_iff (p : Patient) (id : String) :
    idIs p id = true ↔ getProp p "id" = some (JSVal.str id) := by
  unfold idIs
  split
  · next s h => simp [h]
  · next h =>
    constructor
    · intro hf; cases hf
    · intro he; exact absurd he (h id)

theorem removePatient_of_absent (id : String) (c : List Patient)
    (h : ∀ p ∈ c, idIs p id = false) : removePatient id c = c := by
  unfold removePatient
  rw [List.filter_eq_self]
  intro p hp
  simp [h p hp]

theorem getPatient_removePatient (id : String) (c : List Patient) :
    getPatient id (removePatient id c) = none := by
  unfold getPatient removePatient
  rw [List.find?_eq_none]
  intro p hp
  have := (List.mem_filter.mp hp).2
  simpa using this

theorem ids_removePatient_sublist (id : String) (c : List Patient) :
    (ids (removePatient id c)).Sublist (ids c) := by
  unfold ids removePatient
  exact List.Sublist.map _ (List.filter_sublist c)

/-- With pairwise distinct ids, filtering out the matches deletes one record
at most: the first match. -/
theorem removePatient_eq_removeFirstMatch (id : String) (c : List Patient)
    (h : (ids c).Nodup) : removePatient id c = removeFirstMatch id c := by
  induction c with
  | nil => rfl
  | cons p t ih =>
    have hnd : getProp p "id" ∉ ids t ∧ (ids t).Nodup := by
      simpa [ids] using h
    by_cases hp : idIs p id = true
    · have habs : ∀ q ∈ t, idIs q id = false := by
        intro q hq
        by_contra hne
        have hq' : idIs q id = true := by simpa using hne
        apply hnd.1
        rw [(idIs_iff p id).mp hp, ← (idIs_iff q id).mp hq']
        exact List.mem_map_of_mem _ hq
      have := removePatient_of_absent id t habs
      unfold removePatient at this ⊢
      simp [removeFirstMatch, hp, List.filter_cons, this]
    · have ih' := ih hnd.2
      unfold removePatient at ih' ⊢
      simp [removeFirstMatch, hp, List.filter_cons, ih']

theorem removeFirstMatch_length (id : String) (c : List Patient)
    (h : ∃ p ∈ c, idIs p id = true) :
    (removeFirstMatch id c).length + 1 = c.length := by
  induction c with
  | nil => obtain ⟨p, hp, _⟩ := h; cases hp
  | cons q t ih =>
    by_cases hq : idIs q id = true
    · simp [removeFirstMatch, hq]
    · obtain ⟨p, hp, hpid⟩ := h
      have hpt : p ∈ t := by
        rcases List.mem_cons.mp hp with e | e
        · subst e; exact absurd hpid hq
        · exact e
      have := ih ⟨p, hpt, hpid⟩
      simp [removeFirstMatch, hq, this]

theorem formatFrom_get (rand : Nat → ℚ) (clock : Nat → String) (us : List SeedUser) :
    ∀ (k i : Nat), (formatFrom rand clock k us).get? i
      = (us.get? i).map (fun u => formatUser (rand (k + i)) (clock (k + i)) u) := by
  induction us with
  | nil => intro k i; rfl
  | cons u t ih =>
    intro k i
    cases i with
    | zero => rfl
    | succ j =>
      simp only [formatFrom, List.get?, ih (k + 1) j]
      have : k + 1 + j = k + (j + 1) := by omega
      rw [this]

theorem formatFrom_length (rand : Nat → ℚ) (clock : Nat → String) (us : List SeedUser) :
    ∀ k, (formatFrom rand clock k us).length = us.length := by
  induction us with
  | nil => intro k; rfl
  | cons u t ih => intro k; simp [formatFrom, ih (k + 1)]

/-! ## JSON text: strings and numbers -/

theorem hexVal_hexDigit : ∀ n, n < 16 → hexVal (hexDigit n) = some n := by decide

theorem digitVal_digit : ∀ n, n < 10 → digitVal (Char.ofNat (48 + n)) = some n := by decide

theorem isWs_digit : ∀ n, n < 10 → isWs (Char.ofNat (48 + n)) = false := by decide

theorem hex4_control (n : Nat) (h : n < 32) :
    hex4 '0' '0' (hexDigit (n / 16)) (hexDigit (n % 16)) = some (Char.ofNat n) := by
  have h1 : hexVal (hexDigit (n / 16)) = some (n / 16) := hexVal_hexDigit _ (by omega)
  have h2 : hexVal (hexDigit (n % 16)) = some (n % 16) := hexVal_hexDigit _ (by omega)
  have h0 : hexVal '0' = some 0 := by decide
  have e : ((0 * 16 + 0) * 16 + n / 16) * 16 + n % 16 = n := by omega
  simp only [hex4, h0, h1, h2, e]
  rw [if_pos (Or.inl (by omega))]

theorem parseStrBody_quoteChar (c : Char) (t : List Char) :
    parseStrBody (quoteChar c ++ t) = pushChar c (parseStrBody t) := by
  unfold quoteChar
  split
  · next h => subst h; rw [parseStrBody.eq_def]; simp [unescape]
  split
  · next h => subst h; rw [parseStrBody.eq_def]; simp [unescape]
  split
  · next h => subst h; rw [parseStrBody.eq_def]; simp [unescape]
  split
  · next h => subst h; rw [parseStrBody.eq_def]; simp [unescape]
  split
  · next h => subst h; rw [parseStrBody.eq_def]; simp [unescape]
  split
  · next h => subst h; rw [parseStrBody.eq_def]; simp [unescape]
  split
  · next h => subst h; rw [parseStrBody.eq_def]; simp [unescape]
  split
  · next h1 h2 h3 h4 h5 h6 h7 h =>
    rw [parseStrBody.eq_def]
    simp only [List.cons_append, List.nil_append, hex4_control _ h, Char.ofNat_toNat]
    simp
  · next h1 h2 h3 h4 h5 h6 h7 h =>
    rw [parseStrBody.eq_def]
    simp only [List.singleton_append, if_neg h1, if_neg h2, if_neg h]

theorem parseStrBody_quoteChars (s rest : List Char) :
    parseStrBody (quoteChars s ++ '"' :: rest) = some (s, rest) := by
  induction s with
  | nil => rw [parseStrBody.eq_def]; simp [quoteChars]
  | cons c t ih =>
    simp only [quoteChars, List.append_assoc]
    rw [parseStrBody_quoteChar, ih]
    rfl

theorem natDigits_parse (fuel : Nat) : ∀ (n : Nat) (acc r : List Char), n < fuel →
    parseDigits 0 (natDigits fuel n acc ++ r) = parseDigits n (acc ++ r) := by
  induction fuel with
  | zero => intro n acc r h; omega
  | succ f ih =>
    intro n acc r h
    unfold natDigits
    split
    · next hlt =>
      simp only [List.cons_append, parseDigits, digitVal_digit n hlt]
      simp
    · next hge =>
      rw [ih (n / 10) _ r (by omega)]
      simp only [List.cons_append, parseDigits, digitVal_digit (n % 10) (by omega)]
      congr 1
      omega

theorem natDigits_head (fuel : Nat) : ∀ (n : Nat) (acc : List Char), n < fuel → 0 < n →
    ∃ d t, natDigits fuel n acc = Char.ofNat (48 + d) :: t ∧ 0 < d ∧ d < 10 := by
  induction fuel with
  | zero => intro n acc h; omega
  | succ f ih =>
    intro n acc h hpos
    unfold natDigits
    split
    · next hlt => exact ⟨n, acc, rfl, hpos, hlt⟩
    · next hge => exact ih (n / 10) _ (by omega) (by omega)

theorem parseDigits_stop (n : Nat) (r : List Char)
    (hr : ∀ c t, r = c :: t → digitVal c = none) : parseDigits n r = (n, r) := by
  cases r with
  | nil => rfl
  | cons c t => simp [parseDigits, hr c t rfl]

theorem digit_ne_minus : ∀ d, d < 10 → ¬ Char.ofNat (48 + d) = '-' := by decide

theorem parseNat_renderNat (n : Nat) (r : List Char)
    (hr : ∀ c t, r = c :: t → digitVal c = none) :
    parseNat (renderNat n ++ r) = some (n, r) := by
  rcases Nat.eq_zero_or_pos n with h0 | hpos
  · subst h0
    have h0 : renderNat 0 = ['0'] := rfl
    have hz : digitVal '0' = some 0 := by decide
    rw [h0]
    cases r with
    | nil => rfl
    | cons c t =>
      have hc := hr c t rfl
      simp [parseNat, hc, hz]
  · obtain ⟨d, t, ht, hd0, hd10⟩ := natDigits_head (n + 1) n [] (by omega) hpos
    have key := natDigits_parse (n + 1) n [] r (by omega)
    have hrn : renderNat n = Char.ofNat (48 + d) :: t := ht
    rw [List.nil_append, parseDigits_stop n r hr, ht] at key
    rw [hrn]
    simp only [List.cons_append, parseDigits, digitVal_digit d hd10] at key
    simp only [List.cons_append, parseNat, digitVal_digit d hd10]
    have : ¬ d = 0 := by omega
    simp only [if_neg this]
    simp at key
    rw [key]

/-- The first character of a rendered natural number is a decimal digit. -/
theorem renderNat_head (m : Nat) :
    ∃ d t, renderNat m = Char.ofNat (48 + d) :: t ∧ d < 10 := by
  rcases Nat.eq_zero_or_pos m with h0 | hpos
  · subst h0; exact ⟨0, [], rfl, by decide⟩
  · obtain ⟨d, t, ht, _, hd10⟩ := natDigits_head (m + 1) m [] (by omega) hpos
    exact ⟨d, t, ht, hd10⟩

theorem parseNumber_renderInt (n : Int) (r : List Char)
    (hr : ∀ c t, r = c :: t → digitVal c = none) (hf : noFraction r = true) :
    parseNumber (renderInt n ++ r) = some (n, r) := by
  unfold renderInt
  split
  · next hneg =>
    simp only [List.cons_append, parseNumber, if_true, parseNat_renderNat _ r hr, hf]
    congr 2
    omega
  · next hpos =>
    obtain ⟨d, t, ht, hd⟩ := renderNat_head n.natAbs
    have hne := digit_ne_minus d hd
    have := parseNat_renderNat n.natAbs r hr
    rw [ht] at this ⊢
    simp only [List.cons_append] at this ⊢
    simp only [parseNumber, if_neg hne, this, hf]
    have e : (n.natAbs : Int) = n := by omega
    rw [e]
    simp

/-! ## JSON text: values -/

theorem skipWs_cons_of_not_ws (c : Char) (t : List Char) (h : isWs c = false) :
    skipWs (c :: t) = c :: t := by
  simp [skipWs, h]

theorem setProp_append_new (o : JSObject) (k : String) (v : JSVal)
    (h : k ∉ o.map Prod.fst) : setProp o k v = o ++ [(k, v)] := by
  induction o with
  | nil => rfl
  | cons hd t ih =>
    obtain ⟨k', v'⟩ := hd
    simp only [List.map_cons, List.mem_cons, not_or] at h
    have hne : ¬ k' = k := fun e => h.1 e.symm
    simp [setProp, hne, ih h.2]

theorem foldl_setProp_nodup (ps : List (String × JSVal)) :
    ∀ acc : JSObject, (∀ k ∈ ps.map Prod.fst, k ∉ acc.map Prod.fst) →
      (ps.map Prod.fst).Nodup →
      ps.foldl (fun o kv => setProp o kv.1 kv.2) acc = acc ++ ps := by
  induction ps with
  | nil => intro acc _ _; simp
  | cons hd t ih =>
    intro acc hdis hnd
    obtain ⟨k, v⟩ := hd
    simp only [List.map_cons, List.nodup_cons] at hnd
    simp only [List.foldl_cons]
    rw [setProp_append_new acc k v (hdis k (by simp))]
    rw [ih (acc ++ [(k, v)]) _ hnd.2]
    · simp
    · intro k' hk'
      simp only [List.map_append, List.map_cons, List.map_nil, List.mem_append,
        List.mem_singleton, not_or]
      refine ⟨hdis k' (by simp [hk']), ?_⟩
      intro e
      subst e
      exact hnd.1 hk'

theorem membersToObject_of_nodup (ps : List (String × JSVal))
    (h : (ps.map Prod.fst).Nodup) : membersToObject ps = ps := by
  unfold membersToObject
  rw [foldl_setProp_nodup ps [] (by simp) h]
  simp

theorem digitVal_delims : digitVal ',' = none ∧ digitVal ']' = none ∧ digitVal '}' = none := by
  decide

theorem stringifyVal_length_pos (v : JSVal) : 0 < (stringifyVal v).length := by
  cases v with
  | null => simp [stringifyVal]
  | bool b => cases b <;> simp [stringifyVal]
  | num n =>
    obtain ⟨d, t, ht, _⟩ := renderNat_head n.natAbs
    simp only [stringifyVal, renderInt]
    split <;> simp [ht]
  | str s => simp [stringifyVal, quoteJSONString]
  | arr xs => simp [stringifyVal]
  | obj ps => simp [stringifyVal]

theorem parseValue_num (f : Nat) (n : Int) (rest : List Char)
    (hr : ∀ c t, rest = c :: t → digitVal c = none) (hf : noFraction rest = true) :
    parseValue (f + 1) (renderInt n ++ rest) = some (JSVal.num n, rest) := by
  have key := parseNumber_renderInt n rest hr hf
  have hhead : ∃ c t, renderInt n = c :: t ∧ isWs c = false ∧ c ≠ '{' ∧ c ≠ '[' ∧ c ≠ '"'
      ∧ c ≠ 't' ∧ c ≠ 'f' ∧ c ≠ 'n' := by
    have hdig : ∀ d, d < 10 → isWs (Char.ofNat (48 + d)) = false ∧ Char.ofNat (48 + d) ≠ '{'
        ∧ Char.ofNat (48 + d) ≠ '[' ∧ Char.ofNat (48 + d) ≠ '"' ∧ Char.ofNat (48 + d) ≠ 't'
        ∧ Char.ofNat (48 + d) ≠ 'f' ∧ Char.ofNat (48 + d) ≠ 'n' := by decide
    obtain ⟨d, t, ht, hd⟩ := renderNat_head n.natAbs
    unfold renderInt
    split
    · exact ⟨'-', _, rfl, by decide⟩
    · exact ⟨_, t, ht, hdig d hd⟩
  obtain ⟨c, t, hct, hws, h1, h2, h3, h4, h5, h6⟩ := hhead
  rw [hct] at key ⊢
  simp only [List.cons_append] at key ⊢
  rw [parseValue.eq_def]
  simp only [skipWs_cons_of_not_ws c _ hws, if_neg h1, if_neg h2, if_neg h3, if_neg h4,
    if_neg h5, if_neg h6, key]

theorem stringifyVal_head (v : JSVal) :
    ∃ c t, stringifyVal v = c :: t ∧ isWs c = false ∧ c ≠ ']' := by
  cases v with
  | null => exact ⟨_, _, rfl, by decide⟩
  | bool b => cases b <;> exact ⟨_, _, rfl, by decide⟩
  | num n =>
    have hdig : ∀ d, d < 10 → isWs (Char.ofNat (48 + d)) = false ∧ Char.ofNat (48 + d) ≠ ']' := by
      decide
    obtain ⟨d, t, ht, hd⟩ := renderNat_head n.natAbs
    simp only [stringifyVal, renderInt]
    split
    · exact ⟨'-', _, rfl, by decide⟩
    · exact ⟨_, t, ht, hdig d hd⟩
  | str s => exact ⟨_, _, rfl, by decide⟩
  | arr xs => exact ⟨_, _, rfl, by decide⟩
  | obj ps => exact ⟨_, _, rfl, by decide⟩

theorem parseValue_str (f : Nat) (s : String) (rest : List Char) :
    parseValue (f + 1) (quoteJSONString s ++ rest) = some (JSVal.str s, rest) := by
  have hws : isWs '"' = false := by decide
  rw [parseValue.eq_def]
  simp only [quoteJSONString, List.cons_append, List.append_assoc, List.nil_append,
    skipWs_cons_of_not_ws _ _ hws, parseStrBody_quoteChars]
  simp

theorem parseValue_null (f : Nat) (rest : List Char) :
    parseValue (f + 1) (['n', 'u', 'l', 'l'] ++ rest) = some (JSVal.null, rest) := by
  have hws : isWs 'n' = false := by decide
  rw [parseValue.eq_def]
  simp only [List.cons_append, List.nil_append, skipWs_cons_of_not_ws _ _ hws, dropLit]
  simp

theorem parseValue_true (f : Nat) (rest : List Char) :
    parseValue (f + 1) (['t', 'r', 'u', 'e'] ++ rest) = some (JSVal.bool true, rest) := by
  have hws : isWs 't' = false := by decide
  rw [parseValue.eq_def]
  simp only [List.cons_append, List.nil_append, skipWs_cons_of_not_ws _ _ hws, dropLit]
  simp

theorem parseValue_false (f : Nat) (rest : List Char) :
    parseValue (f + 1) (['f', 'a', 'l', 's', 'e'] ++ rest) = some (JSVal.bool false, rest) := by
  have hws : isWs 'f' = false := by decide
  rw [parseValue.eq_def]
  simp only [List.cons_append, List.nil_append, skipWs_cons_of_not_ws _ _ hws, dropLit]
  simp

theorem parseValue_arr_nil (f : Nat) (rest : List Char) :
    parseValue (f + 1) ('[' :: ']' :: rest) = some (JSVal.arr [], rest) := by
  have hws : isWs '[' = false := by decide
  have hws2 : isWs ']' = false := by decide
  rw [parseValue.eq_def]
  simp only [skipWs_cons_of_not_ws _ _ hws, skipWs_cons_of_not_ws _ _ hws2]
  simp

theorem parseValue_obj_nil (f : Nat) (rest : List Char) :
    parseValue (f + 1) ('{' :: '}' :: rest) = some (JSVal.obj [], rest) := by
  have hws : isWs '{' = false := by decide
  have hws2 : isWs '}' = false := by decide
  rw [parseValue.eq_def]
  simp only [skipWs_cons_of_not_ws _ _ hws, skipWs_cons_of_not_ws _ _ hws2]
  simp

theorem parseValue_arr_cons (f : Nat) (c : Char) (t r : List Char) (xs : List JSVal)
    (hws : isWs c = false) (hc : c ≠ ']')
    (h : parseElems f (c :: t) = some (xs, r)) :
    parseValue (f + 1) ('[' :: c :: t) = some (JSVal.arr xs, r) := by
  have hws0 : isWs '[' = false := by decide
  rw [parseValue.eq_def]
  simp only [skipWs_cons_of_not_ws _ _ hws0, skipWs_cons_of_not_ws _ _ hws, if_neg hc, h]
  simp

theorem parseValue_obj_cons (f : Nat) (t r : List Char) (ps : List (String × JSVal))
    (h : parseMembers f ('"' :: t) = some (ps, r)) :
    parseValue (f + 1) ('{' :: '"' :: t) = some (JSVal.obj (membersToObject ps), r) := by
  have hws0 : isWs '{' = false := by decide
  have hws : isWs '"' = false := by decide
  rw [parseValue.eq_def]
  simp only [skipWs_cons_of_not_ws _ _ hws0, skipWs_cons_of_not_ws _ _ hws, h]
  simp

theorem parseElems_last (f : Nat) (cs rest : List Char) (v : JSVal)
    (h : parseValue f cs = some (v, ']' :: rest)) :
    parseElems (f + 1) cs = some ([v], rest) := by
  have hws : isWs ']' = false := by decide
  rw [parseElems.eq_def]
  simp only [h, skipWs_cons_of_not_ws _ _ hws]
  simp

theorem parseElems_more (f : Nat) (cs r1 rest : List Char) (v : JSVal) (xs : List JSVal)
    (h : parseValue f cs = some (v, ',' :: r1))
    (h2 : parseElems f r1 = some (xs, rest)) :
    parseElems (f + 1) cs = some (v :: xs, rest) := by
  have hws : isWs ',' = false := by decide
  rw [parseElems.eq_def]
  simp only [h, skipWs_cons_of_not_ws _ _ hws, h2]
  simp

theorem parseMembers_last (f : Nat) (k : String) (cs rest : List Char) (v : JSVal)
    (h : parseValue f cs = some (v, '}' :: rest)) :
    parseMembers (f + 1) (quoteJSONString k ++ ':' :: cs) = some ([(k, v)], rest) := by
  have hws : isWs '"' = false := by decide
  have hws1 : isWs ':' = false := by decide
  have hws2 : isWs '}' = false := by decide
  rw [parseMembers.eq_def]
  simp only [quoteJSONString, List.cons_append, List.append_assoc, List.nil_append,
    skipWs_cons_of_not_ws _ _ hws, parseStrBody_quoteChars, skipWs_cons_of_not_ws _ _ hws1,
    h, skipWs_cons_of_not_ws _ _ hws2]
  simp

theorem parseMembers_more (f : Nat) (k : String) (cs r1 rest : List Char) (v : JSVal)
    (ps : List (String × JSVal))
    (h : parseValue f cs = some (v, ',' :: r1))
    (h2 : parseMembers f r1 = some (ps, rest)) :
    parseMembers (f + 1) (quoteJSONString k ++ ':' :: cs) = some ((k, v) :: ps, rest) := by
  have hws : isWs '"' = false := by decide
  have hws1 : isWs ':' = false := by decide
  have hws2 : isWs ',' = false := by decide
  rw [parseMembers.eq_def]
  simp only [quoteJSONString, List.cons_append, List.append_assoc, List.nil_append,
    skipWs_cons_of_not_ws _ _ hws, parseStrBody_quoteChars, skipWs_cons_of_not_ws _ _ hws1,
    h, skipWs_cons_of_not_ws _ _ hws2, h2]
  simp

theorem delim_comma (r : List Char) :
    (∀ c t, ',' :: r = c :: t → digitVal c = none) ∧ noFraction (',' :: r) = true := by
  refine ⟨?_, by rfl⟩
  intro c t h
  injection h with h1 _
  subst h1
  decide

theorem delim_bracket (r : List Char) :
    (∀ c t, ']' :: r = c :: t → digitVal c = none) ∧ noFraction (']' :: r) = true := by
  refine ⟨?_, by rfl⟩
  intro c t h
  injection h with h1 _
  subst h1
  decide

theorem delim_brace (r : List Char) :
    (∀ c t, '}' :: r = c :: t → digitVal c = none) ∧ noFraction ('}' :: r) = true := by
  refine ⟨?_, by rfl⟩
  intro c t h
  injection h with h1 _
  subst h1
  decide

mutual
/-- Parsing the text of a well-formed value, followed by input that cannot
continue a number, returns the value and that input, for any fuel that is at
least the length of the text. -/
theorem parseValue_stringifyVal : ∀ (v : JSVal) (fuel : Nat) (rest : List Char),
    wfVal v = true → (stringifyVal v).length ≤ fuel →
    (∀ c t, rest = c :: t → digitVal c = none) → noFraction rest = true →
    parseValue fuel (stringifyVal v ++ rest) = some (v, rest)
  | v, 0, _, _, hlen, _, _ => by
    have := stringifyVal_length_pos v
    omega
  | JSVal.null, f + 1, rest, _, _, _, _ => parseValue_null f rest
  | JSVal.bool true, f + 1, rest, _, _, _, _ => parseValue_true f rest
  | JSVal.bool false, f + 1, rest, _, _, _, _ => parseValue_false f rest
  | JSVal.num n, f + 1, rest, _, _, hr, hf => parseValue_num f n rest hr hf
  | JSVal.str s, f + 1, rest, _, _, _, _ => parseValue_str f s rest
  | JSVal.arr [], f + 1, rest, _, _, _, _ => parseValue_arr_nil f rest
  | JSVal.arr (x :: xs), f + 1, rest, hwf, hlen, _, _ => by
    have hwf' : wfElems (x :: xs) = true := by simpa [wfVal] using hwf
    have hlen' : (stringifyElems (x :: xs)).length + 1 ≤ f := by
      simp [stringifyVal] at hlen
      omega
    have ih := parseElems_stringifyElems (x :: xs) f rest (by simp) hwf' hlen'
    have hhead : ∃ c t, stringifyElems (x :: xs) = c :: t ∧ isWs c = false ∧ c ≠ ']' := by
      obtain ⟨c, t, h, hc⟩ := stringifyVal_head x
      cases xs with
      | nil => exact ⟨c, t, by simp [stringifyElems, h], hc⟩
      | cons w ws =>
        exact ⟨c, t ++ ',' :: stringifyElems (w :: ws), by simp [stringifyElems, h], hc⟩
    obtain ⟨c, t, hct, hws, hc⟩ := hhead
    simp only [stringifyVal, List.cons_append, List.append_assoc, List.nil_append]
    rw [hct] at ih ⊢
    exact parseValue_arr_cons f c _ rest (x :: xs) hws hc ih
  | JSVal.obj [], f + 1, rest, _, _, _, _ => parseValue_obj_nil f rest
  | JSVal.obj (p :: ps), f + 1, rest, hwf, hlen, _, _ => by
    have hwf' : ((p :: ps).map Prod.fst).Nodup ∧ wfProps (p :: ps) = true := by
      simpa [wfVal] using hwf
    have hlen' : (stringifyProps (p :: ps)).length + 1 ≤ f := by
      simp [stringifyVal] at hlen
      omega
    have ih := parseMembers_stringifyProps (p :: ps) f rest (by simp) hwf'.2 hlen'
    have hhead : ∃ t, stringifyProps (p :: ps) = '"' :: t := by
      obtain ⟨k, v⟩ := p
      cases ps with
      | nil => exact ⟨_, rfl⟩
      | cons q qs => exact ⟨_, rfl⟩
    obtain ⟨t, ht⟩ := hhead
    simp only [stringifyVal, List.cons_append, List.append_assoc, List.nil_append]
    rw [ht] at ih ⊢
    have := parseValue_obj_cons f _ rest (p :: ps) ih
    rw [membersToObject_of_nodup _ hwf'.1] at this
    exact this
/-- Parsing the text of a non-empty element list up to the closing bracket. -/
theorem parseElems_stringifyElems : ∀ (xs : List JSVal) (fuel : Nat) (rest : List Char),
    xs ≠ [] → wfElems xs = true → (stringifyElems xs).length + 1 ≤ fuel →
    parseElems fuel (stringifyElems xs ++ ']' :: rest) = some (xs, rest)
  | [], _, _, hne, _, _ => absurd rfl hne
  | _ :: _, 0, _, _, _, hlen => by omega
  | [v], f + 1, rest, _, hwf, hlen => by
    have hwf' : wfVal v = true := by simpa [wfElems] using hwf
    have hlen' : (stringifyVal v).length ≤ f := by
      simp [stringifyElems] at hlen
      omega
    have ih := parseValue_stringifyVal v f (']' :: rest) hwf' hlen'
      (delim_bracket rest).1 (delim_bracket rest).2
    simp only [stringifyElems]
    exact parseElems_last f _ rest v ih
  | v :: w :: t, f + 1, rest, _, hwf, hlen => by
    have hwf' : wfVal v = true ∧ wfElems (w :: t) = true := by
      simpa [wfElems] using hwf
    have hpos := stringifyVal_length_pos v
    have hl : (stringifyElems (v :: w :: t)).length
        = (stringifyVal v).length + 1 + (stringifyElems (w :: t)).length := by
      simp [stringifyElems]
      omega
    have ih1 := parseValue_stringifyVal v f (',' :: (stringifyElems (w :: t) ++ ']' :: rest))
      hwf'.1 (by omega) (delim_comma _).1 (delim_comma _).2
    have ih2 := parseElems_stringifyElems (w :: t) f rest (by simp) hwf'.2 (by omega)
    simp only [stringifyElems, List.append_assoc, List.cons_append]
    exact parseElems_more f _ _ rest v (w :: t) ih1 ih2
/-- Parsing the text of a non-empty member list up to the closing brace. -/
theorem parseMembers_stringifyProps : ∀ (ps : List (String × JSVal)) (fuel : Nat)
    (rest : List Char),
    ps ≠ [] → wfProps ps = true → (stringifyProps ps).length + 1 ≤ fuel →
    parseMembers fuel (stringifyProps ps ++ '}' :: rest) = some (ps, rest)
  | [], _, _, hne, _, _ => absurd rfl hne
  | _ :: _, 0, _, _, _, hlen => by omega
  | [(k, v)], f + 1, rest, _, hwf, hlen => by
    have hwf' : wfVal v = true := by simpa [wfProps] using hwf
    have hlen' : (stringifyVal v).length ≤ f := by
      simp [stringifyProps] at hlen
      omega
    have ih := parseValue_stringifyVal v f ('}' :: rest) hwf' hlen'
      (delim_brace rest).1 (delim_brace rest).2
    simp only [stringifyProps, List.append_assoc, List.cons_append]
    exact parseMembers_last f k _ rest v ih
  | (k, v) :: q :: t, f + 1, rest, _, hwf, hlen => by
    have hwf' : wfVal v = true ∧ wfProps (q :: t) = true := by
      simpa [wfProps] using hwf
    have hl : (stringifyProps ((k, v) :: q :: t)).length
        = (quoteJSONString k).length + 1 + (stringifyVal v).length + 1
          + (stringifyProps (q :: t)).length := by
      simp [stringifyProps]
      omega
    have ih1 := parseValue_stringifyVal v f (',' :: (stringifyProps (q :: t) ++ '}' :: rest))
      hwf'.1 (by omega) (delim_comma _).1 (delim_comma _).2
    have ih2 := parseMembers_stringifyProps (q :: t) f rest (by simp) hwf'.2 (by omega)
    simp only [stringifyProps, List.append_assoc, List.cons_append]
    exact parseMembers_more f k _ _ rest v (q :: t) ih1 ih2
end

/-- Parsing the text `JSON.stringify` wrote for a well-formed value returns that value. -/
theorem parse_stringify (v : JSVal) (h : wfVal v = true) :
    JSON.parse (JSON.stringify v) = some v := by
  unfold JSON.parse JSON.stringify
  have key := parseValue_stringifyVal v ((stringifyVal v).length + 1) [] h (by omega)
    (by intro c t e; cases e) rfl
  simp only [List.append_nil] at key
  simp [key, skipWs]


/-! ## JSON text: what the parser accepts is JSON -/

theorem jsonRun_cons (st : JState) (stack : List Bool) (c : Char) (t : List Char) :
    jsonRun st stack (c :: t)
      = match jsonStep st stack c with
        | some (st', stack') => jsonRun st' stack' t
        | none => false := rfl

theorem skipWs_head (cs : List Char) : ∀ c t, skipWs cs = c :: t → isWs c = false := by
  induction cs with
  | nil => intro c t h; cases h
  | cons x xs ih =>
    intro c t h
    by_cases hx : isWs x = true
    · simp only [skipWs, hx, if_true] at h
      exact ih c t h
    · simp only [skipWs, hx] at h
      injection h with h1 _
      subst h1
      simpa using hx

/-- White space is skipped in the states between tokens. -/
theorem jsonRun_skipWs (st : JState) (stack : List Bool)
    (h : ∀ c, isWs c = true → jsonStep st stack c = some (st, stack)) (cs : List Char) :
    jsonRun st stack cs = jsonRun st stack (skipWs cs) := by
  induction cs with
  | nil => rfl
  | cons x xs ih =>
    by_cases hx : isWs x = true
    · simp only [skipWs, hx, if_true]
      rw [jsonRun_cons, h x hx]
      exact ih
    · simp only [skipWs, hx]
      rfl

theorem ws_value (stack : List Bool) (c : Char) (h : isWs c = true) :
    jsonStep JState.value stack c = some (JState.value, stack) := by
  simp [jsonStep, startValue, h]

theorem ws_valueOrClose (stack : List Bool) (c : Char) (h : isWs c = true) :
    jsonStep JState.valueOrClose stack c = some (JState.valueOrClose, stack) := by
  simp [jsonStep, h]

theorem ws_keyOrClose (stack : List Bool) (c : Char) (h : isWs c = true) :
    jsonStep JState.keyOrClose stack c = some (JState.keyOrClose, stack) := by
  simp [jsonStep, h]

theorem ws_key (stack : List Bool) (c : Char) (h : isWs c = true) :
    jsonStep JState.key stack c = some (JState.key, stack) := by
  simp [jsonStep, h]

theorem ws_colon (stack : List Bool) (c : Char) (h : isWs c = true) :
    jsonStep JState.colon stack c = some (JState.colon, stack) := by
  simp [jsonStep, h]

theorem ws_done (stack : List Bool) (c : Char) (h : isWs c = true) :
    jsonStep JState.done stack c = some (JState.done, stack) := by
  simp [jsonStep, afterValue, h]

theorem pushChar_some (ch : Char) (o : Option (List Char × List Char)) (s r : List Char)
    (h : pushChar ch o = some (s, r)) : ∃ s', o = some (s', r) := by
  cases o with
  | none => cases h
  | some p =>
    obtain ⟨s', r'⟩ := p
    simp only [pushChar, Option.some.injEq, Prod.mk.injEq] at h
    exact ⟨s', by rw [h.2]⟩

theorem hex4_some (a b x d ch : Char) (h : hex4 a b x d = some ch) :
    (hexVal a).isSome = true ∧ (hexVal b).isSome = true ∧ (hexVal x).isSome = true
      ∧ (hexVal d).isSome = true := by
  unfold hex4 at h
  cases ha : hexVal a <;> cases hb : hexVal b <;> cases hx : hexVal x <;> cases hd : hexVal d
    <;> simp [ha, hb, hx, hd] at h ⊢

/-- A string body the parser reads is a string body of JSON text. -/
theorem jsonRun_parseStrBody (n : Nat) : ∀ (t s r : List Char), t.length ≤ n →
    parseStrBody t = some (s, r) → ∀ (k : Bool) (stack : List Bool),
    jsonRun (JState.str k) stack t
      = jsonRun (if k then JState.colon else JState.done) stack r := by
  induction n with
  | zero =>
    intro t s r hlen h
    have : t = [] := List.length_eq_zero.mp (by omega)
    subst this
    rw [parseStrBody.eq_def] at h
    cases h
  | succ n ih =>
    intro t s r hlen h k stack
    rw [parseStrBody.eq_def] at h
    cases t with
    | nil => cases h
    | cons c t =>
      simp only [List.length_cons] at hlen
      simp only at h
      by_cases hq : c = '"'
      · simp only [hq, if_true, Option.some.injEq, Prod.mk.injEq] at h
        subst hq
        rw [jsonRun_cons]
        simp only [jsonStep, if_true]
        rw [h.2]
      · simp only [hq, if_false] at h
        by_cases hb : c = '\\'
        · simp only [hb, if_true] at h
          subst hb
          cases t with
          | nil => cases h
          | cons e t1 =>
            simp only at h
            simp only [List.length_cons] at hlen
            by_cases hu : e = 'u'
            · simp only [hu, if_true] at h
              subst hu
              match t1, h, hlen with
              | a :: b :: x :: d :: t2, h, hlen =>
                simp only at h
                simp only [List.length_cons] at hlen
                cases hh : hex4 a b x d with
                | none => simp [hh] at h
                | some ch =>
                  simp only [hh] at h
                  obtain ⟨s', hs'⟩ := pushChar_some _ _ _ _ h
                  obtain ⟨h1, h2, h3, h4⟩ := hex4_some a b x d ch hh
                  have := ih t2 s' r (by omega) hs' k stack
                  simp [jsonRun_cons, jsonStep, h1, h2, h3, h4, this]
              | [], h, _ => simp at h
              | [_], h, _ => simp at h
              | [_, _], h, _ => simp at h
              | [_, _, _], h, _ => simp at h
            · simp only [hu, if_false] at h
              cases hun : unescape e with
              | none => simp [hun] at h
              | some ch =>
                simp only [hun] at h
                obtain ⟨s', hs'⟩ := pushChar_some _ _ _ _ h
                have := ih t1 s' r (by omega) hs' k stack
                simp [jsonRun_cons, jsonStep, hu, hun, this]
        · simp only [hb, if_false] at h
          by_cases hc : c.toNat < 32
          · simp [hc] at h
          · simp only [hc, if_false] at h
            obtain ⟨s', hs'⟩ := pushChar_some _ _ _ _ h
            have := ih t s' r (by omega) hs' k stack
            rw [jsonRun_cons]
            simp only [jsonStep, hq, hb, hc, if_false]
            exact this

theorem digitVal_isDigit (c : Char) (d : Nat) (h : digitVal c = some d) :
    isDigit c = true ∧ d = c.toNat - 48 := by
  unfold digitVal at h
  split at h
  · next hc =>
    injection h with h
    exact ⟨by simp [isDigit, hc], h.symm⟩
  · cases h

theorem digitVal_none_not_digit (c : Char) (h : digitVal c = none) : isDigit c = false := by
  unfold digitVal at h
  split at h
  · cases h
  · next hc => simp [isDigit, hc]

theorem digit_zero (c : Char) (h : digitVal c = some 0) : c = '0' := by
  unfold digitVal at h
  split at h
  · next hc =>
    injection h with h
    have h48 : c.toNat = 48 := by omega
    have := Char.ofNat_toNat c
    rw [h48] at this
    exact this.symm
  · cases h

theorem digit_nonzero (c : Char) (d : Nat) (h : digitVal c = some d) (hd : d ≠ 0) :
    c ≠ '0' := by
  intro e
  subst e
  have : digitVal '0' = some 0 := by decide
  rw [this] at h
  injection h with h
  exact hd h.symm

/-- A digit starts no other token and is no white space. -/
theorem digit_start (c : Char) (h : isDigit c = true) :
    isWs c = false ∧ c ≠ '{' ∧ c ≠ '[' ∧ c ≠ '"' ∧ c ≠ '-' := by
  have hc : 48 ≤ c.toNat ∧ c.toNat ≤ 57 := by simpa [isDigit] using h
  refine ⟨?_, ?_, ?_, ?_, ?_⟩
  · cases hw : isWs c with
    | false => rfl
    | true =>
      exfalso
      simp only [isWs, Bool.or_eq_true, beq_iff_eq] at hw
      rcases hw with ((hw | hw) | hw) | hw <;> (subst hw; revert hc; decide)
  · intro e; subst e; revert hc; decide
  · intro e; subst e; revert hc; decide
  · intro e; subst e; revert hc; decide
  · intro e; subst e; revert hc; decide

theorem jsonRun_parseDigits (stack : List Bool) : ∀ (t : List Char) (acc m : Nat)
    (r : List Char), parseDigits acc t = (m, r) →
    jsonRun JState.int stack t = jsonRun JState.int stack r
      ∧ (∀ c t', r = c :: t' → isDigit c = false) := by
  intro t
  induction t with
  | nil =>
    intro acc m r h
    simp only [parseDigits, Prod.mk.injEq] at h
    rw [← h.2]
    exact ⟨rfl, fun c t' e => by cases e⟩
  | cons c t ih =>
    intro acc m r h
    simp only [parseDigits] at h
    cases hd : digitVal c with
    | none =>
      simp only [hd, Prod.mk.injEq] at h
      rw [← h.2]
      refine ⟨rfl, ?_⟩
      intro c' t' e
      injection e with e1 _
      subst e1
      exact digitVal_none_not_digit c hd
    | some d =>
      simp only [hd] at h
      obtain ⟨h1, h2⟩ := ih _ m r h
      refine ⟨?_, h2⟩
      rw [jsonRun_cons]
      simp only [jsonStep, (digitVal_isDigit c d hd).1, if_true]
      exact h1

/-- Where a number ends, the reader is where it is after any complete value. -/
theorem jsonRun_number_end (stack : List Bool) (r : List Char)
    (hf : noFraction r = true) :
    jsonRun JState.zero stack r = jsonRun JState.done stack r
    ∧ ((∀ c t', r = c :: t' → isDigit c = false) →
        jsonRun JState.int stack r = jsonRun JState.done stack r) := by
  cases r with
  | nil => cases stack <;> exact ⟨rfl, fun _ => rfl⟩
  | cons c t =>
    have hc : c ≠ '.' ∧ c ≠ 'e' ∧ c ≠ 'E' := by
      have : (¬c = '.' ∧ ¬c = 'e') ∧ ¬c = 'E' := by simpa [noFraction] using hf
      exact ⟨this.1.1, this.1.2, this.2⟩
    refine ⟨?_, ?_⟩
    · simp [jsonRun_cons, jsonStep, hc.1, hc.2.1, hc.2.2]
    · intro hd
      have := hd c t rfl
      simp [jsonRun_cons, jsonStep, hc.1, hc.2.1, hc.2.2, this]

theorem jsonRun_parseNat (stack : List Bool) (cs : List Char) (n : Nat) (r : List Char)
    (h : parseNat cs = some (n, r)) (hf : noFraction r = true) :
    jsonRun JState.minus stack cs = jsonRun JState.done stack r
    ∧ jsonRun JState.value stack cs = jsonRun JState.done stack r
    ∧ ∃ c t, cs = c :: t ∧ isDigit c = true := by
  cases cs with
  | nil => cases h
  | cons c t =>
    simp only [parseNat] at h
    cases hd : digitVal c with
    | none => simp [hd] at h
    | some d =>
      simp only [hd] at h
      have hdig := (digitVal_isDigit c d hd).1
      obtain ⟨hws, h1, h2, h3, h4⟩ := digit_start c hdig
      by_cases hz : d = 0
      · subst hz
        have hc0 := digit_zero c hd
        simp only [if_true] at h
        have hr : r = t := by
          cases t with
          | nil => simp at h; exact h.2
          | cons c1 t1 =>
            simp only at h
            split at h
            · cases h
            · simp at h; exact h.2.symm
        subst hr
        have hend := (jsonRun_number_end stack r hf).1
        subst hc0
        refine ⟨?_, ?_, _, _, rfl, hdig⟩
        · rw [jsonRun_cons]
          simp only [jsonStep, if_true]
          exact hend
        · rw [jsonRun_cons]
          simp [jsonStep, startValue, hws]
          exact hend
      · simp only [hz, if_false, Option.some.injEq] at h
        have hc0 := digit_nonzero c d hd hz
        obtain ⟨hrun, hnd⟩ := jsonRun_parseDigits stack t d n r h
        have hend := (jsonRun_number_end stack r hf).2 hnd
        refine ⟨?_, ?_, _, _, rfl, hdig⟩
        · rw [jsonRun_cons]
          simp only [jsonStep, hc0, if_false, hdig, if_true]
          rw [hrun, hend]
        · rw [jsonRun_cons]
          simp only [jsonStep, startValue, hws, h1, h2, h3, h4, hc0, hdig, if_true]
          simp
          rw [hrun, hend]

/-- A number the parser reads is a number of JSON text. -/
theorem jsonRun_parseNumber (stack : List Bool) (cs : List Char) (n : Int) (r : List Char)
    (h : parseNumber cs = some (n, r)) :
    jsonRun JState.value stack cs = jsonRun JState.done stack r := by
  cases cs with
  | nil => cases h
  | cons c t =>
    simp only [parseNumber] at h
    by_cases hm : c = '-'
    · simp only [hm, if_true] at h
      subst hm
      cases hp : parseNat t with
      | none => simp [hp] at h
      | some p =>
        obtain ⟨m, r'⟩ := p
        simp only [hp] at h
        by_cases hf : noFraction r' = true
        · simp only [hf, if_true, Option.some.injEq, Prod.mk.injEq] at h
          obtain ⟨_, hr⟩ := h
          subst hr
          rw [jsonRun_cons]
          have : jsonStep JState.value stack '-' = some (JState.minus, stack) := by
            simp [jsonStep, startValue]
            decide
          rw [this]
          exact (jsonRun_parseNat stack t m r' hp hf).1
        · simp [hf] at h
    · simp only [hm, if_false] at h
      cases hp : parseNat (c :: t) with
      | none => simp [hp] at h
      | some p =>
        obtain ⟨m, r'⟩ := p
        simp only [hp] at h
        by_cases hf : noFraction r' = true
        · simp only [hf, if_true, Option.some.injEq, Prod.mk.injEq] at h
          obtain ⟨_, hr⟩ := h
          subst hr
          exact (jsonRun_parseNat stack (c :: t) m r' hp hf).2.1
        · simp [hf] at h

/-- A literal token the parser reads is that token of JSON text. -/
theorem jsonRun_dropLit (stack : List Bool) : ∀ (es t r : List Char), es ≠ [] →
    dropLit es t = some r →
    jsonRun (JState.lit es) stack t = jsonRun JState.done stack r := by
  intro es
  induction es with
  | nil => intro t r hne; exact absurd rfl hne
  | cons e es ih =>
    intro t r _ h
    cases t with
    | nil => cases h
    | cons c cs =>
      simp only [dropLit] at h
      by_cases hec : e = c
      · simp only [hec, if_true] at h
        subst hec
        rw [jsonRun_cons]
        cases es with
        | nil =>
          simp only [dropLit, Option.some.injEq] at h
          subst h
          simp [jsonStep]
        | cons e2 es2 =>
          simp only [jsonStep, if_true]
          exact ih cs r (by simp) h
      · simp [hec] at h

theorem jsonRun_open_value (stack : List Bool) (c : Char) (t : List Char)
    (hws : isWs c = false) (hc : c ≠ ']') :
    jsonRun JState.valueOrClose stack (c :: t) = jsonRun JState.value stack (c :: t) := by
  simp [jsonRun_cons, jsonStep, hws, hc]

theorem jsonRun_open_key (stack : List Bool) (c : Char) (t : List Char)
    (hws : isWs c = false) (hc : c ≠ '}') :
    jsonRun JState.keyOrClose stack (c :: t) = jsonRun JState.key stack (c :: t) := by
  simp [jsonRun_cons, jsonStep, hws, hc]

/-- The punctuation and letters that start tokens are no white space and no digits. -/
theorem token_facts :
    isWs '{' = false ∧ isWs '}' = false ∧ isWs '[' = false ∧ isWs ']' = false
    ∧ isWs '"' = false ∧ isWs ',' = false ∧ isWs ':' = false ∧ isWs 't' = false
    ∧ isWs 'f' = false ∧ isWs 'n' = false ∧ isDigit 't' = false ∧ isDigit 'f' = false
    ∧ isDigit 'n' = false := by
  decide

/-- What the three parsers accept, the reader of JSON text accepts: a value
from where a value starts, elements up to the bracket that closes the array,
members up to the brace that closes the object. -/
theorem jsonRun_parsers (fuel : Nat) :
    (∀ cs v r, parseValue fuel cs = some (v, r) → ∀ stack,
        jsonRun JState.value stack cs = jsonRun JState.done stack r)
    ∧ (∀ cs xs r, parseElems fuel cs = some (xs, r) → ∀ stack,
        jsonRun JState.value (false :: stack) cs = jsonRun JState.done stack r)
    ∧ (∀ cs ps r, parseMembers fuel cs = some (ps, r) → ∀ stack,
        jsonRun JState.key (true :: stack) cs = jsonRun JState.done stack r) := by
  obtain ⟨w1, w2, w3, w4, w5, w6, w7, w8, w9, w10, d1, d2, d3⟩ := token_facts
  induction fuel with
  | zero =>
    refine ⟨?_, ?_, ?_⟩
    · intro cs v r h; rw [parseValue.eq_def] at h; cases h
    · intro cs xs r h; rw [parseElems.eq_def] at h; cases h
    · intro cs ps r h; rw [parseMembers.eq_def] at h; cases h
  | succ f ih =>
    obtain ⟨ihV, ihE, ihM⟩ := ih
    refine ⟨?_, ?_, ?_⟩
    · intro cs v r h stack
      rw [parseValue.eq_def] at h
      simp only at h
      rw [jsonRun_skipWs _ _ (ws_value stack) cs]
      cases hs : skipWs cs with
      | nil => simp [hs] at h
      | cons c t =>
        have hws := skipWs_head cs c t hs
        simp only [hs] at h
        by_cases h1 : c = '{'
        · simp only [h1, if_true] at h
          subst h1
          have hstep : jsonRun JState.value stack ('{' :: t)
              = jsonRun JState.keyOrClose (true :: stack) t := by
            simp [jsonRun_cons, jsonStep, startValue, w1, w2, w3, w4, w5, w6, w7, w8, w9, w10, d1, d2, d3]
          rw [hstep, jsonRun_skipWs _ _ (ws_keyOrClose (true :: stack)) t]
          cases hs1 : skipWs t with
          | nil => simp [hs1] at h
          | cons c1 t1 =>
            have hws1 := skipWs_head t c1 t1 hs1
            simp only [hs1] at h
            by_cases h2 : c1 = '}'
            · simp only [h2, if_true, Option.some.injEq, Prod.mk.injEq] at h
              subst h2
              rw [← h.2]
              simp [jsonRun_cons, jsonStep, afterValue, w1, w2, w3, w4, w5, w6, w7, w8, w9, w10, d1, d2, d3]
            · simp only [h2, if_false] at h
              cases hm : parseMembers f (c1 :: t1) with
              | none => simp [hm] at h
              | some p =>
                obtain ⟨ps, r'⟩ := p
                simp only [hm, Option.some.injEq, Prod.mk.injEq] at h
                rw [← h.2, jsonRun_open_key _ c1 t1 hws1 h2]
                exact ihM _ ps r' hm stack
        · simp only [h1, if_false] at h
          by_cases h2 : c = '['
          · simp only [h2, if_true] at h
            subst h2
            have hstep : jsonRun JState.value stack ('[' :: t)
                = jsonRun JState.valueOrClose (false :: stack) t := by
              simp [jsonRun_cons, jsonStep, startValue, w1, w2, w3, w4, w5, w6, w7, w8, w9, w10, d1, d2, d3]
            rw [hstep, jsonRun_skipWs _ _ (ws_valueOrClose (false :: stack)) t]
            cases hs1 : skipWs t with
            | nil => simp [hs1] at h
            | cons c1 t1 =>
              have hws1 := skipWs_head t c1 t1 hs1
              simp only [hs1] at h
              by_cases h3 : c1 = ']'
              · simp only [h3, if_true, Option.some.injEq, Prod.mk.injEq] at h
                subst h3
                rw [← h.2]
                simp [jsonRun_cons, jsonStep, afterValue, w1, w2, w3, w4, w5, w6, w7, w8, w9, w10, d1, d2, d3]
              · simp only [h3, if_false] at h
                cases hm : parseElems f (c1 :: t1) with
                | none => simp [hm] at h
                | some p =>
                  obtain ⟨xs, r'⟩ := p
                  simp only [hm, Option.some.injEq, Prod.mk.injEq] at h
                  rw [← h.2, jsonRun_open_value _ c1 t1 hws1 h3]
                  exact ihE _ xs r' hm stack
          · simp only [h2, if_false] at h
            by_cases h3 : c = '"'
            · simp only [h3, if_true] at h
              subst h3
              cases hp : parseStrBody t with
              | none => simp [hp] at h
              | some p =>
                obtain ⟨s, r'⟩ := p
                simp only [hp, Option.some.injEq, Prod.mk.injEq] at h
                rw [← h.2]
                have := jsonRun_parseStrBody t.length t s r' (le_refl _) hp false stack
                simp only [Bool.false_eq_true, if_false] at this
                rw [← this]
                simp [jsonRun_cons, jsonStep, startValue, w1, w2, w3, w4, w5, w6, w7, w8, w9, w10, d1, d2, d3]
            · simp only [h3, if_false] at h
              by_cases h4 : c = 't'
              · simp only [h4, if_true] at h
                subst h4
                cases hp : dropLit ['r', 'u', 'e'] t with
                | none => simp [hp] at h
                | some r' =>
                  simp only [hp, Option.some.injEq, Prod.mk.injEq] at h
                  rw [← h.2, ← jsonRun_dropLit stack _ t r' (by simp) hp]
                  simp [jsonRun_cons, jsonStep, startValue, w1, w2, w3, w4, w5, w6, w7, w8, w9, w10, d1, d2, d3]
              · simp only [h4, if_false] at h
                by_cases h5 : c = 'f'
                · simp only [h5, if_true] at h
                  subst h5
                  cases hp : dropLit ['a', 'l', 's', 'e'] t with
                  | none => simp [hp] at h
                  | some r' =>
                    simp only [hp, Option.some.injEq, Prod.mk.injEq] at h
                    rw [← h.2, ← jsonRun_dropLit stack _ t r' (by simp) hp]
                    simp [jsonRun_cons, jsonStep, startValue, w1, w2, w3, w4, w5, w6, w7, w8, w9, w10, d1, d2, d3]
                · simp only [h5, if_false] at h
                  by_cases h6 : c = 'n'
                  · simp only [h6, if_true] at h
                    subst h6
                    cases hp : dropLit ['u', 'l', 'l'] t with
                    | none => simp [hp] at h
                    | some r' =>
                      simp only [hp, Option.some.injEq, Prod.mk.injEq] at h
                      rw [← h.2, ← jsonRun_dropLit stack _ t r' (by simp) hp]
                      simp [jsonRun_cons, jsonStep, startValue, w1, w2, w3, w4, w5, w6, w7, w8, w9, w10, d1, d2, d3]
                  · simp only [h6, if_false] at h
                    cases hp : parseNumber (c :: t) with
                    | none => simp [hp] at h
                    | some p =>
                      obtain ⟨n, r'⟩ := p
                      simp only [hp, Option.some.injEq, Prod.mk.injEq] at h
                      rw [← h.2]
                      exact jsonRun_parseNumber stack (c :: t) n r' hp
    · intro cs xs r h stack
      rw [parseElems.eq_def] at h
      simp only at h
      cases hv : parseValue f cs with
      | none => simp [hv] at h
      | some p =>
        obtain ⟨v, r1⟩ := p
        simp only [hv] at h
        rw [ihV cs v r1 hv (false :: stack),
          jsonRun_skipWs _ _ (ws_done (false :: stack)) r1]
        cases hs : skipWs r1 with
        | nil => simp [hs] at h
        | cons d r2 =>
          have hws := skipWs_head r1 d r2 hs
          simp only [hs] at h
          by_cases h1 : d = ','
          · simp only [h1, if_true] at h
            subst h1
            cases he : parseElems f r2 with
            | none => simp [he] at h
            | some p =>
              obtain ⟨ys, r3⟩ := p
              simp only [he, Option.some.injEq, Prod.mk.injEq] at h
              rw [← h.2, ← ihE r2 ys r3 he stack]
              simp [jsonRun_cons, jsonStep, afterValue, w1, w2, w3, w4, w5, w6, w7, w8, w9, w10, d1, d2, d3]
          · simp only [h1, if_false] at h
            by_cases h2 : d = ']'
            · simp only [h2, if_true, Option.some.injEq, Prod.mk.injEq] at h
              subst h2
              rw [← h.2]
              simp [jsonRun_cons, jsonStep, afterValue, w1, w2, w3, w4, w5, w6, w7, w8, w9, w10, d1, d2, d3]
            · simp [h2] at h
    · intro cs ps r h stack
      rw [parseMembers.eq_def] at h
      simp only at h
      rw [jsonRun_skipWs _ _ (ws_key (true :: stack)) cs]
      cases hs : skipWs cs with
      | nil => simp [hs] at h
      | cons q t =>
        simp only [hs] at h
        by_cases hq : q = '"'
        · simp only [hq, if_true] at h
          subst hq
          cases hp : parseStrBody t with
          | none => simp [hp] at h
          | some p =>
            obtain ⟨k, r1⟩ := p
            simp only [hp] at h
            have hstr := jsonRun_parseStrBody t.length t k r1 (le_refl _) hp true (true :: stack)
            simp only [if_true] at hstr
            have hstep : jsonRun JState.key (true :: stack) ('"' :: t)
                = jsonRun (JState.str true) (true :: stack) t := by
              simp [jsonRun_cons, jsonStep, w1, w2, w3, w4, w5, w6, w7, w8, w9, w10, d1, d2, d3]
            rw [hstep, hstr, jsonRun_skipWs _ _ (ws_colon (true :: stack)) r1]
            cases hs1 : skipWs r1 with
            | nil => simp [hs1] at h
            | cons col r2 =>
              simp only [hs1] at h
              by_cases hcol : col = ':'
              · simp only [hcol, if_true] at h
                subst hcol
                cases hv : parseValue f r2 with
                | none => simp [hv] at h
                | some p =>
                  obtain ⟨v, r3⟩ := p
                  simp only [hv] at h
                  have hstep2 : jsonRun JState.colon (true :: stack) (':' :: r2)
                      = jsonRun JState.value (true :: stack) r2 := by
                    simp [jsonRun_cons, jsonStep, w1, w2, w3, w4, w5, w6, w7, w8, w9, w10, d1, d2, d3]
                  rw [hstep2, ihV r2 v r3 hv (true :: stack),
                    jsonRun_skipWs _ _ (ws_done (true :: stack)) r3]
                  cases hs2 : skipWs r3 with
                  | nil => simp [hs2] at h
                  | cons d r4 =>
                    simp only [hs2] at h
                    by_cases h1 : d = ','
                    · simp only [h1, if_true] at h
                      subst h1
                      cases hm : parseMembers f r4 with
                      | none => simp [hm] at h
                      | some p =>
                        obtain ⟨qs, r5⟩ := p
                        simp only [hm, Option.some.injEq, Prod.mk.injEq] at h
                        rw [← h.2, ← ihM r4 qs r5 hm stack]
                        simp [jsonRun_cons, jsonStep, afterValue, w1, w2, w3, w4, w5, w6, w7, w8, w9, w10, d1, d2, d3]
                    · simp only [h1, if_false] at h
                      by_cases h2 : d = '}'
                      · simp only [h2, if_true, Option.some.injEq, Prod.mk.injEq] at h
                        subst h2
                        rw [← h.2]
                        simp [jsonRun_cons, jsonStep, afterValue, w1, w2, w3, w4, w5, w6, w7, w8, w9, w10, d1, d2, d3]
                      · simp [h2] at h
              · simp [hcol] at h
        · simp [hq] at h

/-- Every text the model's `JSON.parse` reads is JSON: `JSON.parse` returns a
value only where the real call does not throw. -/
theorem jsonValid_of_parse (s : String) (v : JSVal) (h : JSON.parse s = some v) :
    jsonValid s = true := by
  unfold JSON.parse at h
  cases hp : parseValue (s.data.length + 1) s.data with
  | none => rw [hp] at h; cases h
  | some p =>
    obtain ⟨v', r⟩ := p
    rw [hp] at h
    by_cases hr : skipWs r = []
    · unfold jsonValid
      rw [(jsonRun_parsers _).1 s.data v' r hp [],
        jsonRun_skipWs _ _ (ws_done []) r, hr]
      rfl
    · simp [hr] at h

/-! ## Well-formedness is kept by the store actions -/

theorem keys_setProp (o : JSObject) (k : String) (v : JSVal) :
    (setProp o k v).map Prod.fst
      = if k ∈ o.map Prod.fst then o.map Prod.fst else o.map Prod.fst ++ [k] := by
  induction o with
  | nil => simp [setProp]
  | cons hd t ih =>
    obtain ⟨k', v'⟩ := hd
    by_cases h : k' = k
    · subst h; simp [setProp]
    · have h' : ¬ k = k' := fun e => h e.symm
      by_cases hm : k ∈ t.map Prod.fst
      · simp only [setProp, h, if_false, List.map_cons, ih, hm, if_true, List.mem_cons, or_true]
      · simp only [setProp, h, if_false, List.map_cons, ih, hm, List.mem_cons, h', or_self,
          List.cons_append]

theorem wfProps_setProp (o : JSObject) (k : String) (v : JSVal)
    (ho : wfProps o = true) (hv : wfVal v = true) : wfProps (setProp o k v) = true := by
  induction o with
  | nil => simp [setProp, wfProps, hv]
  | cons hd t ih =>
    obtain ⟨k', v'⟩ := hd
    have h2 : wfVal v' = true ∧ wfProps t = true := by simpa [wfProps] using ho
    by_cases h : k' = k
    · simp [setProp, h, wfProps, hv, h2.2]
    · simp [setProp, h, wfProps, h2.1, ih h2.2]

theorem wfVal_obj_setProp (o : JSObject) (k : String) (v : JSVal)
    (ho : wfVal (JSVal.obj o) = true) (hv : wfVal v = true) :
    wfVal (JSVal.obj (setProp o k v)) = true := by
  have h2 : (o.map Prod.fst).Nodup ∧ wfProps o = true := by simpa [wfVal] using ho
  have hk : ((setProp o k v).map Prod.fst).Nodup := by
    rw [keys_setProp]
    split
    · exact h2.1
    · next hm =>
      rw [List.nodup_append]
      refine ⟨h2.1, List.nodup_singleton k, ?_⟩
      intro a ha hb
      simp only [List.mem_singleton] at hb
      subst hb
      exact hm ha
  simp [wfVal, hk, wfProps_setProp o k v h2.2 hv]

theorem wfVal_newPatient (newId now : String) (p : Patient)
    (hp : wfVal (JSVal.obj p) = true) : wfVal (JSVal.obj (newPatient newId now p)) = true := by
  unfold newPatient
  exact wfVal_obj_setProp _ _ _ (wfVal_obj_setProp _ _ _ hp rfl) rfl

theorem wfElems_map_obj (c : List Patient) :
    wfElems (c.map JSVal.obj) = true ↔ ∀ p ∈ c, wfVal (JSVal.obj p) = true := by
  induction c with
  | nil => simp [wfElems]
  | cons p t ih =>
    simp only [List.map_cons, wfElems, Bool.and_eq_true, ih, List.mem_cons, forall_eq_or_imp]

theorem wfVal_collection_iff (c : List Patient) :
    wfVal (collectionValue c) = true ↔ ∀ p ∈ c, wfVal (JSVal.obj p) = true := by
  have h : wfVal (collectionValue c) = wfElems (c.map JSVal.obj) := by
    unfold collectionValue
    rw [wfVal]
  rw [h]
  exact wfElems_map_obj c

theorem wfVal_applyOp (c : List Patient) (op : StoreOp)
    (hc : wfVal (collectionValue c) = true) (hop : wfOp op = true) :
    wfVal (collectionValue (applyOp c op)) = true := by
  rw [wfVal_collection_iff] at hc ⊢
  cases op with
  | add newId now patient =>
    intro p hp
    simp only [applyOp, addPatient, List.mem_cons] at hp
    rcases hp with e | e
    · subst e; exact wfVal_newPatient _ _ _ hop
    · exact hc p e
  | remove id =>
    intro p hp
    simp only [applyOp, removePatient] at hp
    exact hc p (List.mem_filter.mp hp).1

theorem wfVal_applyOps (ops : List StoreOp) : ∀ (c : List Patient),
    wfVal (collectionValue c) = true → (∀ op ∈ ops, wfOp op = true) →
    wfVal (collectionValue (applyOps c ops)) = true := by
  induction ops with
  | nil => intro c hc _; exact hc
  | cons op t ih =>
    intro c hc hops
    unfold applyOps
    simp only [List.foldl_cons]
    exact ih (applyOp c op) (wfVal_applyOp c op hc (hops op (by simp)))
      (fun o ho => hops o (by simp [ho]))

/-- The seeded collection is well formed: every record is built from one
object literal with eight distinct keys. -/
theorem wfVal_seedTransform (rand : Nat → ℚ) (clock : Nat → String) (results : List SeedUser) :
    wfVal (collectionValue (seedTransform rand clock results)) = true := by
  rw [wfVal_collection_iff]
  unfold seedTransform
  generalize 0 = k
  induction results generalizing k with
  | nil => intro p hp; cases hp
  | cons u t ih =>
    intro p hp
    simp only [formatFrom, List.mem_cons] at hp
    rcases hp with e | e
    · subst e
      simp [formatUser, wfVal, wfProps]
    · exact ih (k + 1) p e

theorem stringify_ne_empty (v : JSVal) : truthy (some (JSON.stringify v)) = true := by
  have h := stringifyVal_length_pos v
  unfold truthy JSON.stringify
  simp only [bne_iff_ne, ne_eq]
  intro e
  have := congrArg String.length e
  simp [String.length] at this
  rw [this] at h
  simp at h

theorem getItem_setItem_same (ls : Storage) (k v : String) :
    getItem (setItem ls k v) k = some v := by
  simp [getItem, setItem]

theorem getItem_removeItem_same (ls : Storage) (k : String) :
    getItem (removeItem ls k) k = none := by
  simp [getItem, removeItem]

theorem initialPatients_persistPatients (v : JSVal) (ls : Storage) (h : wfVal v = true) :
    initialPatients (persistPatients v ls) = some v := by
  unfold initialPatients persistPatients
  rw [getItem_setItem_same]
  simp only [stringify_ne_empty, if_true]
  exact parse_stringify v h

/-! ## The store contract -/

/-- C1: after `addPatient(p)` the new record is at index 0, the previous
records follow it in their previous order, `getPatient` on the assigned id
returns the new record, the new record agrees with `p` on every property other
than `id` and `admittedAt`, and its `id` is the generated one whether or not
`p` carries an `id` of its own. -/
theorem addPatient_contract (c : List Patient) (p : Patient) (newId now : String) :
    (addPatient newId now p c).get? 0 = some (newPatient newId now p)
    ∧ (∀ i, (addPatient newId now p c).get? (i + 1) = c.get? i)
    ∧ getPatient newId (addPatient newId now p c) = some (newPatient newId now p)
    ∧ (∀ k, k ≠ "id" → k ≠ "admittedAt" → getProp (newPatient newId now p) k = getProp p k)
    ∧ getProp (newPatient newId now p) "id" = some (JSVal.str newId) := by
  refine ⟨rfl, fun i => rfl, ?_, ?_, getProp_newPatient_id newId now p⟩
  · simp [getPatient, addPatient, idIs_newPatient]
  · intro k h1 h2
    unfold newPatient
    rw [getProp_setProp_other _ _ _ _ h2, getProp_setProp_other _ _ _ _ h1]

/-- C2, as stated, fails: with two records that carry the id `"a"`, the id is
present and `removePatient("a")` shortens the collection by two. -/
theorem removePatient_length_counterexample :
    (∃ p ∈ twinRecords, idIs p "a" = true)
    ∧ (removePatient "a" twinRecords).length + 1 ≠ twinRecords.length := by
  decide

/-- C2, amended: in a collection whose ids are pairwise distinct, for an id
that is present, after `removePatient(id)` the lookup `getPatient(id)` returns
`undefined` and the collection is exactly one record shorter. -/
theorem removePatient_present (c : List Patient) (id : String)
    (hd : (ids c).Nodup) (hp : ∃ p ∈ c, idIs p id = true) :
    getPatient id (removePatient id c) = none
    ∧ (removePatient id c).length + 1 = c.length := by
  refine ⟨getPatient_removePatient id c, ?_⟩
  rw [removePatient_eq_removeFirstMatch id c hd]
  exact removeFirstMatch_length id c hp

/-- Witness for C2: discharging `u2` from the seeded pair. -/
theorem removePatient_present_witness :
    getPatient "u2" (removePatient "u2" seededTwo) = none
    ∧ (removePatient "u2" seededTwo).length + 1 = seededTwo.length :=
  removePatient_present seededTwo "u2"
    (by simp [ids, seededTwo, seedTransform, formatFrom, twoUsers, formatUser, getProp])
    (by decide)

/-- C3: `removePatient(id)` with an id that matches no record leaves the
collection unchanged: same records, same order, same length. -/
theorem removePatient_absent (c : List Patient) (id : String)
    (h : ∀ p ∈ c, idIs p id = false) :
    removePatient id c = c ∧ (removePatient id c).length = c.length := by
  have e := removePatient_of_absent id c h
  exact ⟨e, by rw [e]⟩

/-- Witness for C3: no seeded record has the id `"zz"`. -/
theorem removePatient_absent_witness :
    removePatient "zz" seededTwo = seededTwo
    ∧ (removePatient "zz" seededTwo).length = seededTwo.length :=
  removePatient_absent seededTwo "zz" (by decide)

/-- C4: for every collection reached from a well-formed one by `addPatient` and
`removePatient` actions on well-formed input records, writing it to the
`mq_patients` entry and running the initial read yields that same collection. -/
theorem persist_reload_roundtrip (c : List Patient) (ops : List StoreOp) (ls : Storage)
    (hc : wfVal (collectionValue c) = true) (hops : ∀ op ∈ ops, wfOp op = true) :
    initialPatients (persistPatients (collectionValue (applyOps c ops)) ls)
      = some (collectionValue (applyOps c ops)) :=
  initialPatients_persistPatients _ ls (wfVal_applyOps ops c hc hops)

/-- Witness for C4: the seeded pair, one admission and one discharge. -/
theorem persist_reload_roundtrip_witness :
    initialPatients (persistPatients (collectionValue
        (applyOps seededTwo [StoreOp.add "n1" "1/2/2025, 8:00:00 AM" joInput,
          StoreOp.remove "u1"])) emptyStorage)
      = some (collectionValue
        (applyOps seededTwo [StoreOp.add "n1" "1/2/2025, 8:00:00 AM" joInput,
          StoreOp.remove "u1"])) :=
  persist_reload_roundtrip seededTwo
    [StoreOp.add "n1" "1/2/2025, 8:00:00 AM" joInput, StoreOp.remove "u1"] emptyStorage
    (by decide) (by decide)

/-- C5: `login(i)` followed by a restart restores a user equal to `i` and ends
the loading phase; `logout()` followed by a restart leaves no user, whatever
the session state and storage were before. -/
theorem login_logout_restart (userData : JSVal) (st : AuthState) (ls : Storage)
    (h : wfVal userData = true) :
    restart (login userData st ls).2 = some { user := userData, loading := false }
    ∧ restart (logout st ls).2 = some { user := JSVal.null, loading := false } := by
  constructor
  · unfold restart restoreSession login
    simp only [getItem_setItem_same, stringify_ne_empty, if_true, parse_stringify userData h]
  · unfold restart restoreSession logout
    simp only [getItem_removeItem_same]
    rfl

/-- Witness for C5: the identity the login page supplies. -/
theorem login_logout_restart_witness :
    restart (login (JSVal.obj [("name", JSVal.str "Admin Staff"),
        ("email", JSVal.str "a@b.co")]) authInit emptyStorage).2
      = some { user := JSVal.obj [("name", JSVal.str "Admin Staff"),
        ("email", JSVal.str "a@b.co")], loading := false }
    ∧ restart (logout authInit emptyStorage).2
      = some { user := JSVal.null, loading := false } :=
  login_logout_restart _ authInit emptyStorage (by decide)

/-- C6, as stated, fails: an `mq_patients` entry that exists and holds the
empty string does not stop the seed fetch. -/
theorem seedFetch_counterexample :
    getItem (setItem emptyStorage "mq_patients" "") "mq_patients" ≠ none
    ∧ seedFetchIssued (setItem emptyStorage "mq_patients" "") = true := by
  decide

/-- C6, amended: the seed fetch is issued exactly when the `mq_patients` entry
does not exist or holds the empty string; it is never issued when the entry
holds what the persistence effect wrote, in particular `"[]"` for the empty
array. -/
theorem seedFetch_iff (ls : Storage) :
    (seedFetchIssued ls = true
      ↔ getItem ls "mq_patients" = none ∨ getItem ls "mq_patients" = some "")
    ∧ (∀ v, seedFetchIssued (persistPatients v ls) = false)
    ∧ getItem (persistPatients (collectionValue []) ls) "mq_patients" = some "[]" := by
  refine ⟨?_, ?_, ?_⟩
  · unfold seedFetchIssued
    cases hg : getItem ls "mq_patients" with
    | none => simp [truthy]
    | some s => simp [truthy]
  · intro v
    unfold seedFetchIssued persistPatients
    rw [getItem_setItem_same, stringify_ne_empty]
    rfl
  · unfold persistPatients
    rw [getItem_setItem_same]
    rfl

/-- C7: the transformed seed collection has the length and order of `results`;
its `k`-th record takes `id`, `name`, `age`, `gender` and `img` from the `k`-th
user, has the fixed symptoms text, and has priority `"Critical"` or `"Stable"`
for every random draw. -/
theorem seedTransform_contract (rand : Nat → ℚ) (clock : Nat → String)
    (results : List SeedUser) :
    (seedTransform rand clock results).length = results.length
    ∧ ∀ (k : Nat) (u : SeedUser), results.get? k = some u →
      ∃ r, (seedTransform rand clock results).get? k = some r
        ∧ getProp r "id" = some (JSVal.str u.loginUuid)
        ∧ getProp r "name" = some (JSVal.str (u.nameFirst ++ " " ++ u.nameLast))
        ∧ getProp r "age" = some (JSVal.num u.dobAge)
        ∧ getProp r "gender" = some (JSVal.str u.gender)
        ∧ getProp r "img" = some (JSVal.str u.pictureLarge)
        ∧ getProp r "symptoms" = some (JSVal.str "Initial checkup required")
        ∧ (getProp r "priority" = some (JSVal.str "Critical")
            ∨ getProp r "priority" = some (JSVal.str "Stable")) := by
  refine ⟨formatFrom_length rand clock results 0, ?_⟩
  intro k u hu
  refine ⟨formatUser (rand (0 + k)) (clock (0 + k)) u, ?_, ?_⟩
  · unfold seedTransform
    rw [formatFrom_get, hu]
    rfl
  · refine ⟨rfl, rfl, rfl, rfl, rfl, rfl, ?_⟩
    by_cases hdraw : rand (0 + k) > criticalThreshold
    · left
      simp only [formatUser, getProp, if_pos hdraw]
      rfl
    · right
      simp only [formatUser, getProp, if_neg hdraw]
      rfl

/-- C8: when `addPatient(p)` assigns an id that no record of `c` has, the
collection grows by one with the new record at index 0, and `removePatient` of
that id returns exactly `c`. -/
theorem add_then_remove (c : List Patient) (p : Patient) (newId now : String)
    (hfresh : ∀ q ∈ c, idIs q newId = false) :
    (addPatient newId now p c).length = c.length + 1
    ∧ (addPatient newId now p c).get? 0 = some (newPatient newId now p)
    ∧ removePatient newId (addPatient newId now p c) = c := by
  refine ⟨rfl, rfl, ?_⟩
  have h := removePatient_of_absent newId c hfresh
  unfold removePatient at h ⊢
  simp [addPatient, List.filter_cons, idIs_newPatient, h]

/-- Witness for C8: the seeded pair grows to three and returns to the pair. -/
theorem add_then_remove_witness :
    seededTwo.length = 2
    ∧ (addPatient "n1" "1/2/2025, 8:00:00 AM" joInput seededTwo).length = seededTwo.length + 1
    ∧ (addPatient "n1" "1/2/2025, 8:00:00 AM" joInput seededTwo).get? 0
        = some (newPatient "n1" "1/2/2025, 8:00:00 AM" joInput)
    ∧ removePatient "n1" (addPatient "n1" "1/2/2025, 8:00:00 AM" joInput seededTwo)
        = seededTwo :=
  ⟨rfl, add_then_remove seededTwo joInput "n1" "1/2/2025, 8:00:00 AM" (by decide)⟩

/-- C9: pairwise distinct ids stay pairwise distinct after `addPatient`, given
the generated id is not already in the collection, and after `removePatient`
of any id. -/
theorem ids_nodup_invariant (c : List Patient) (h : (ids c).Nodup) :
    (∀ newId now p, (∀ q ∈ c, idIs q newId = false) →
        (ids (addPatient newId now p c)).Nodup)
    ∧ (∀ id, (ids (removePatient id c)).Nodup) := by
  constructor
  · intro newId now p hfresh
    have hids : ids (addPatient newId now p c) = some (JSVal.str newId) :: ids c := by
      simp [ids, addPatient, getProp_newPatient_id]
    rw [hids, List.nodup_cons]
    refine ⟨?_, h⟩
    intro hm
    obtain ⟨q, hq, hqe⟩ := List.mem_map.mp hm
    have := hfresh q hq
    rw [(idIs_iff q newId).mpr hqe] at this
    cases this
  · intro id
    exact List.Nodup.sublist (ids_removePatient_sublist id c) h

/-- Witness for C9: the seeded pair has distinct ids. -/
theorem ids_nodup_invariant_witness :
    (∀ newId now p, (∀ q ∈ seededTwo, idIs q newId = false) →
        (ids (addPatient newId now p seededTwo)).Nodup)
    ∧ (∀ id, (ids (removePatient id seededTwo)).Nodup) :=
  ids_nodup_invariant seededTwo
    (by simp [ids, seededTwo, seedTransform, formatFrom, twoUsers, formatUser, getProp])

/-- C10, as stated, fails: with two records that carry the id `"a"`,
`removePatient("a")` deletes both, while deleting only the first match keeps
the second. -/
theorem removePatient_first_counterexample :
    removePatient "a" twinRecords ≠ removeFirstMatch "a" twinRecords := by
  intro h
  have := congrArg List.length h
  revert this
  decide

theorem removePatient_eq_removeEveryMatch (id : String) (c : List Patient) :
    removePatient id c = removeEveryMatch id c := by
  induction c with
  | nil => rfl
  | cons p t ih =>
    unfold removePatient at ih ⊢
    by_cases hp : idIs p id = true
    · simp [removeEveryMatch, List.filter_cons, hp, ih]
    · simp [removeEveryMatch, List.filter_cons, hp, ih]

/-- C10, amended: for every collection and id, `removePatient(id)` removes
every record whose id matches and keeps, in their original order, exactly the
records whose id does not match; in a collection whose ids are pairwise
distinct this is the collection with only the first match deleted. -/
theorem removePatient_refines (c : List Patient) (id : String) :
    removePatient id c = removeEveryMatch id c
    ∧ (removePatient id c).Sublist c
    ∧ (∀ p, p ∈ removePatient id c ↔ (p ∈ c ∧ idIs p id = false))
    ∧ ((ids c).Nodup → removePatient id c = removeFirstMatch id c) := by
  refine ⟨removePatient_eq_removeEveryMatch id c, List.filter_sublist c, ?_,
    removePatient_eq_removeFirstMatch id c⟩
  intro p
  simp [removePatient, List.mem_filter]

/-- Witness for C10: discharging `u1` from the seeded pair, whose ids are distinct. -/
theorem removePatient_refines_witness :
    removePatient "u1" seededTwo = removeEveryMatch "u1" seededTwo
    ∧ removePatient "u1" seededTwo = removeFirstMatch "u1" seededTwo :=
  ⟨(removePatient_refines seededTwo "u1").1,
    (removePatient_refines seededTwo "u1").2.2.2
      (by simp [ids, seededTwo, seedTransform, formatFrom, twoUsers, formatUser, getProp])⟩

/-! ## Session lifecycle -/

theorem applyAuthOp_loading (s : AuthState × Storage) (op : AuthOp) :
    (applyAuthOp s op).1.loading = s.1.loading := by
  cases op <;> rfl

theorem applyAuthOps_loading (ops : List AuthOp) : ∀ s : AuthState × Storage,
    (applyAuthOps s ops).1.loading = s.1.loading := by
  induction ops with
  | nil => intro s; rfl
  | cons op t ih =>
    intro s
    unfold applyAuthOps
    simp only [List.foldl_cons]
    exact (ih (applyAuthOp s op)).trans (applyAuthOp_loading s op)

theorem throws_false_of_parse (s : String) (v : JSVal) (h : JSON.parse s = some v) :
    JSON.throws s = false := by
  unfold JSON.throws
  rw [jsonValid_of_parse s v h]
  rfl

theorem restoreSession_loading (ls : Storage) (st st' : AuthState)
    (h : restoreSession ls st = some st') :
    st'.loading = false ∧ loadingAfterRestore ls st = false := by
  unfold restoreSession at h
  unfold loadingAfterRestore
  cases hg : getItem ls "mq_user" with
  | none =>
    rw [hg] at h
    injection h with h
    subst h
    exact ⟨rfl, rfl⟩
  | some s =>
    rw [hg] at h
    by_cases ht : truthy (some s) = true
    · simp only [ht, if_true] at h ⊢
      cases hp : JSON.parse s with
      | none => rw [hp] at h; cases h
      | some u =>
        rw [hp] at h
        injection h with h
        subst h
        simp [throws_false_of_parse s u hp]
    · simp only [ht] at h ⊢
      injection h with h
      subst h
      exact ⟨rfl, rfl⟩

theorem loadingAfterRestore_iff (ls : Storage) :
    loadingAfterRestore ls authInit = false ↔
      ∀ s, getItem ls "mq_user" = some s → truthy (some s) = true → JSON.throws s = false := by
  unfold loadingAfterRestore
  cases hg : getItem ls "mq_user" with
  | none => simp
  | some s =>
    by_cases ht : truthy (some s) = true
    · cases hth : JSON.throws s with
      | false => simp [ht, hth]
      | true =>
        constructor
        · intro h
          simp [ht, authInit] at h
          rw [hth] at h
          cases h
        · intro h
          have := h s rfl ht
          rw [hth] at this
          cases this
    · simp [ht]

/-- C11, as stated, fails: with an `mq_user` entry that is not JSON text
`JSON.parse` throws before `setLoading(false)`, and `loading` is still true
after the startup pass. -/
theorem loading_counterexample :
    JSON.throws "\x7b" = true
    ∧ (restart corruptSession).isNone = true
    ∧ loadingAfterRestore corruptSession authInit = true := by
  decide

/-- C11, amended: `loading` starts true; the startup restoration pass sets it
to false exactly when the stored `mq_user` entry is absent, empty, or text
that `JSON.parse` accepts (when `JSON.parse` throws, the pass aborts before
`setLoading(false)`); once false, no sequence of `login` and `logout` actions
sets it back to true. -/
theorem loading_lifecycle (ls : Storage) :
    authInit.loading = true
    ∧ (loadingAfterRestore ls authInit = false ↔
        ∀ s, getItem ls "mq_user" = some s → truthy (some s) = true → JSON.throws s = false)
    ∧ (∀ st, restart ls = some st → st.loading = false ∧ loadingAfterRestore ls authInit = false)
    ∧ ∀ (st : AuthState) (ls' : Storage) (ops : List AuthOp),
        st.loading = false → (applyAuthOps (st, ls') ops).1.loading = false := by
  refine ⟨rfl, loadingAfterRestore_iff ls, ?_, ?_⟩
  · intro st h
    exact restoreSession_loading ls authInit st h
  · intro st ls' ops h
    rw [applyAuthOps_loading]
    exact h

/-- Witness for C11: the stored text `1.5` is JSON, so the pass ends the
loading phase, and a following login and logout leave it ended. -/
theorem loading_lifecycle_witness :
    loadingAfterRestore fractionSession authInit = false
    ∧ (applyAuthOps ({ user := JSVal.null, loading := false }, fractionSession)
        [AuthOp.login (JSVal.obj [("name", JSVal.str "Admin Staff")]), AuthOp.logout]).1.loading
        = false :=
  ⟨(loading_lifecycle fractionSession).2.1.mpr (by
      intro s hs _
      have e : s = "1.5" := by
        have : getItem fractionSession "mq_user" = some "1.5" := rfl
        rw [this] at hs
        injection hs with hs
        exact hs.symm
      subst e
      decide),
    (loading_lifecycle fractionSession).2.2.2 _ _ _ rfl⟩

/-! ## Write-through persistence -/

theorem dispatchAll_patients (ops : List StoreOp) : ∀ s : PatientStore,
    (dispatchAll s ops).patients = applyOps s.patients ops := by
  induction ops with
  | nil => intro s; rfl
  | cons op t ih =>
    intro s
    unfold dispatchAll applyOps
    simp only [List.foldl_cons]
    exact ih (dispatch s op)

/-- C12: after every `addPatient` and every `removePatient`, once the render
that follows the action has run its persistence effect, the `mq_patients`
entry holds the JSON text of the entire resulting collection. -/
theorem write_through (s : PatientStore) (ops : List StoreOp) (op : StoreOp) :
    (dispatch (dispatchAll s ops) op).patients = applyOps s.patients (ops ++ [op])
    ∧ getItem (dispatch (dispatchAll s ops) op).storage "mq_patients"
        = some (JSON.stringify (collectionValue (applyOps s.patients (ops ++ [op]))))
    ∧ getItem (dispatch (dispatchAll s ops) op).storage "mq_patients"
        = some (JSON.stringify (collectionValue (dispatch (dispatchAll s ops) op).patients)) := by
  have hp : (dispatch (dispatchAll s ops) op).patients = applyOps s.patients (ops ++ [op]) := by
    unfold dispatch persistEffect
    simp only [dispatchAll_patients]
    unfold applyOps
    rw [List.foldl_append]
    rfl
  have hs : getItem (dispatch (dispatchAll s ops) op).storage "mq_patients"
      = some (JSON.stringify (collectionValue (dispatch (dispatchAll s ops) op).patients)) := by
    unfold dispatch persistEffect persistPatients
    exact getItem_setItem_same _ _ _
  refine ⟨hp, ?_, hs⟩
  rw [hs, hp]

/-! ## The seed chain -/

/-- C13: when the seed fetch fails (the request is rejected, the response
cannot be parsed, or the body lacks the results list), the chain ends
fulfilled by its `.catch` handler, the collection is not modified, and a store
that started with no stored data keeps an empty collection. -/
theorem seed_failure_swallowed (rand : Nat → ℚ) (clock : Nat → String)
    (outcome : FetchOutcome) (patients : List Patient) (ls : Storage)
    (hfail : fetchFailed outcome = true) :
    seedChain rand clock outcome = Settled.fulfilled none
    ∧ seedSettle rand clock outcome patients = patients
    ∧ (getItem ls "mq_patients" = none →
        initialPatients ls = some (collectionValue [])
        ∧ seedFetchIssued ls = true
        ∧ seedEffect rand clock ls outcome [] = []) := by
  have hchain : seedChain rand clock outcome = Settled.fulfilled none := by
    cases outcome with
    | networkError => rfl
    | invalidJson => rfl
    | body data =>
      obtain ⟨results⟩ := data
      cases results with
      | none => rfl
      | some r => cases hfail
  have hsettle : ∀ c, seedSettle rand clock outcome c = c := by
    intro c
    unfold seedSettle
    rw [hchain]
  refine ⟨hchain, hsettle patients, ?_⟩
  intro hnone
  refine ⟨?_, ?_, ?_⟩
  · unfold initialPatients
    rw [hnone]
    rfl
  · unfold seedFetchIssued
    rw [hnone]
    rfl
  · unfold seedEffect
    rw [hsettle]
    simp

/-- Witness for C13: a body without a results list, on empty storage. -/
theorem seed_failure_swallowed_witness :
    seedChain (fun _ => 0) (fun _ => "t") (FetchOutcome.body { results := none })
        = Settled.fulfilled none
    ∧ seedSettle (fun _ => 0) (fun _ => "t") (FetchOutcome.body { results := none }) seededTwo
        = seededTwo
    ∧ (getItem emptyStorage "mq_patients" = none →
        initialPatients emptyStorage = some (collectionValue [])
        ∧ seedFetchIssued emptyStorage = true
        ∧ seedEffect (fun _ => 0) (fun _ => "t") emptyStorage
            (FetchOutcome.body { results := none }) [] = []) :=
  seed_failure_swallowed (fun _ => 0) (fun _ => "t") (FetchOutcome.body { results := none })
    seededTwo emptyStorage rfl

theorem idIs_formatUser (draw : ℚ) (now : String) (u : SeedUser) (id : String) :
    idIs (formatUser draw now u) id = (u.loginUuid == id) := by
  simp [idIs, formatUser, getProp]

theorem getPatient_formatFrom (rand : Nat → ℚ) (clock : Nat → String) (id : String)
    (us : List SeedUser) (h : ∀ u ∈ us, u.loginUuid ≠ id) :
    ∀ k, getPatient id (formatFrom rand clock k us) = none := by
  induction us with
  | nil => intro k; rfl
  | cons u t ih =>
    intro k
    have hu : (u.loginUuid == id) = false := by
      simpa using h u (by simp)
    have ht := ih (fun v hv => h v (by simp [hv])) (k + 1)
    unfold getPatient at ht ⊢
    simp only [formatFrom, List.find?_cons, idIs_formatUser, hu]
    exact ht

/-- C17: when the seed fetch resolves with a results list, the collection
becomes exactly the transformed seed set whatever it held before; a record
added by `addPatient` in between is gone: its generated id, which no seeded
user carries, is no longer found. -/
theorem seed_overwrites (rand : Nat → ℚ) (clock : Nat → String) (results : List SeedUser)
    (c0 : List Patient) (ops : List StoreOp) :
    seedSettle rand clock (FetchOutcome.body { results := some results }) (applyOps c0 ops)
      = seedTransform rand clock results
    ∧ ∀ (newId now : String) (p : Patient) (c : List Patient),
        (∀ u ∈ results, u.loginUuid ≠ newId) →
        getPatient newId (addPatient newId now p c) = some (newPatient newId now p)
        ∧ getPatient newId (seedSettle rand clock
            (FetchOutcome.body { results := some results }) (addPatient newId now p c)) = none := by
  have h : ∀ c, seedSettle rand clock (FetchOutcome.body { results := some results }) c
      = seedTransform rand clock results := fun c => rfl
  refine ⟨h _, ?_⟩
  intro newId now p c hne
  refine ⟨?_, ?_⟩
  · simp [getPatient, addPatient, idIs_newPatient]
  · rw [h]
    exact getPatient_formatFrom rand clock newId results hne 0

/-! ## Route guarding -/

/-- C14, as stated, fails: the stored text `0` restores the user `0`, which is
not null, and `ProtectedRoute` redirects instead of returning its children. -/
theorem protectedRoute_counterexample :
    restart zeroSession = some { user := JSVal.num 0, loading := false }
    ∧ JSVal.num 0 ≠ JSVal.null
    ∧ protectedRoute (JSVal.num 0) = View.navigate "/" := by
  refine ⟨rfl, ?_, rfl⟩
  intro h
  cases h

/-- C14, amended: `AuthProvider` renders no children while `loading` is true,
and `ProtectedRoute` returns its children if and only if `user` is truthy,
otherwise a redirect to `"/"`; so protected content is rendered only when
loading has ended and a user is present, and for a user that is null or an
object the test is the test for non-null. -/
theorem route_guard (st : AuthState) :
    (st.loading = true → authProviderRender st = View.nothing)
    ∧ (protectedRoute st.user = View.children ↔ jsTruthy st.user = true)
    ∧ (jsTruthy st.user = false → protectedRoute st.user = View.navigate "/")
    ∧ (authProviderRender st = View.children → protectedRoute st.user = View.children →
        st.loading = false ∧ st.user ≠ JSVal.null)
    ∧ ((st.user = JSVal.null ∨ ∃ ps, st.user = JSVal.obj ps) →
        (protectedRoute st.user = View.children ↔ st.user ≠ JSVal.null)) := by
  have hiff : protectedRoute st.user = View.children ↔ jsTruthy st.user = true := by
    unfold protectedRoute
    cases jsTruthy st.user <;> simp
  refine ⟨?_, hiff, ?_, ?_, ?_⟩
  · intro h
    simp [authProviderRender, h]
  · intro h
    simp [protectedRoute, h]
  · intro h1 h2
    constructor
    · cases hl : st.loading with
      | false => rfl
      | true => simp [authProviderRender, hl] at h1
    · intro hn
      rw [hn] at h2
      cases h2
  · intro h
    rw [hiff]
    rcases h with h | ⟨ps, h⟩
    · rw [h]; simp [jsTruthy]
    · rw [h]; simp [jsTruthy]

/-! ## The admission form -/

theorem stringRequired_iff (v : Option String) :
    stringRequired v = true ↔ ∃ s, v = some s ∧ s ≠ "" := by
  cases v with
  | none => simp [stringRequired]
  | some s => simp [stringRequired]

theorem jsLength_empty : jsLength "" = 0 := rfl

theorem symptoms_ok_iff (v : Option String) :
    (stringMin 5 v && stringRequired v) = true ↔ ∃ s, v = some s ∧ 5 ≤ jsLength s := by
  cases v with
  | none => simp [stringMin, stringRequired]
  | some s =>
    simp only [stringMin, stringRequired, Bool.and_eq_true, decide_eq_true_eq, bne_iff_ne,
      ne_eq, Option.some.injEq, exists_eq_left']
    constructor
    · intro h; exact h.1
    · intro h
      refine ⟨h, ?_⟩
      intro e
      rw [e, jsLength_empty] at h
      omega

theorem age_ok_iff (a : Option JSNumber) :
    (numberType a && numberPositive a && numberInteger a && numberRequired a) = true
      ↔ ∃ n : Int, 0 < n ∧ a = some (JSNumber.finite n) := by
  cases a with
  | none => simp [numberRequired]
  | some x =>
    cases x with
    | nan => simp [numberType]
    | posInfinity => simp [numberInteger]
    | negInfinity => simp [numberInteger]
    | finite q =>
      simp only [numberType, numberPositive, numberInteger, numberRequired, Bool.true_and,
        Bool.and_true, Bool.and_eq_true, decide_eq_true_eq, beq_iff_eq, Option.some.injEq,
        JSNumber.finite.injEq]
      constructor
      · rintro ⟨hpos, hden⟩
        have hq : ((q.num : Int) : ℚ) = q := Rat.coe_int_num_of_den_eq_one hden
        refine ⟨q.num, ?_, hq.symm⟩
        have : (0 : ℚ) < ((q.num : Int) : ℚ) := by rw [hq]; exact hpos
        exact_mod_cast this
      · rintro ⟨n, hn, rfl⟩
        exact ⟨by exact_mod_cast hn, Rat.den_intCast n⟩

theorem schemaAccepts_iff (f : PatientForm) :
    schemaAccepts f = true ↔
      (∃ s, f.name = some s ∧ s ≠ "")
      ∧ (∃ n : Int, 0 < n ∧ f.age = some (JSNumber.finite n))
      ∧ (∃ s, f.gender = some s ∧ s ≠ "")
      ∧ (∃ s, f.symptoms = some s ∧ 5 ≤ jsLength s)
      ∧ (∃ s, f.priority = some s ∧ s ≠ "") := by
  unfold schemaAccepts
  rw [Bool.and_eq_true, Bool.and_eq_true, Bool.and_eq_true, Bool.and_eq_true,
    stringRequired_iff, age_ok_iff, stringRequired_iff, symptoms_ok_iff, stringRequired_iff]
  tauto

theorem validatedData_isSome (f : PatientForm) :
    (validatedData f).isSome = schemaAccepts f := by
  unfold validatedData
  cases h : schemaAccepts f with
  | false => rfl
  | true =>
    obtain ⟨⟨n, hn, _⟩, ⟨a, _, ha⟩, ⟨g, hg, _⟩, ⟨s, hs, _⟩, ⟨p, hp, _⟩⟩ :=
      (schemaAccepts_iff f).mp h
    simp [hn, ha, hg, hs, hp]

/-- C15: the schema accepts an input if and only if `name` is a non-empty
string, `age` is an integer greater than 0, `gender` is non-empty, `symptoms`
has length at least 5 and `priority` is non-empty; `onSubmit`, and with it
`addPatient`, runs exactly for accepted input, on the validated data. -/
theorem form_validation (f : PatientForm) (newId now : String) (patients : List Patient) :
    (schemaAccepts f = true ↔
      (∃ s, f.name = some s ∧ s ≠ "")
      ∧ (∃ n : Int, 0 < n ∧ f.age = some (JSNumber.finite n))
      ∧ (∃ s, f.gender = some s ∧ s ≠ "")
      ∧ (∃ s, f.symptoms = some s ∧ 5 ≤ jsLength s)
      ∧ (∃ s, f.priority = some s ∧ s ≠ ""))
    ∧ (handleSubmit newId now f patients).isSome = schemaAccepts f
    ∧ (∀ c, handleSubmit newId now f patients = some c →
        schemaAccepts f = true
        ∧ ∃ data, validatedData f = some data
          ∧ c = addPatient newId now (setProp data "img" (JSVal.str avatarUrl)) patients) := by
  have hsome : (handleSubmit newId now f patients).isSome = schemaAccepts f := by
    rw [← validatedData_isSome]
    unfold handleSubmit
    cases validatedData f <;> rfl
  refine ⟨schemaAccepts_iff f, hsome, ?_⟩
  intro c hc
  refine ⟨?_, ?_⟩
  · rw [← hsome, hc]
    rfl
  · unfold handleSubmit at hc
    cases hv : validatedData f with
    | none => rw [hv] at hc; cases hc
    | some data =>
      rw [hv] at hc
      injection hc with hc
      exact ⟨data, rfl, hc.symm⟩

/-! ## The dashboard filter -/

theorem startsWith_iff (text pat : List Char) :
    startsWith text pat = true ↔ ∃ b, text = pat ++ b := by
  induction pat generalizing text with
  | nil => cases text <;> simp [startsWith]
  | cons d ds ih =>
    cases text with
    | nil => simp [startsWith]
    | cons c t =>
      simp only [startsWith, Bool.and_eq_true, beq_iff_eq, ih, List.cons_append,
        List.cons.injEq]
      constructor
      · rintro ⟨rfl, b, rfl⟩; exact ⟨b, rfl, rfl⟩
      · rintro ⟨b, rfl, rfl⟩; exact ⟨rfl, b, rfl⟩

/-- The search test holds exactly when the pattern occurs inside the text. -/
theorem includesChars_iff (text pat : List Char) :
    includesChars text pat = true ↔ ∃ a b, text = a ++ pat ++ b := by
  induction text with
  | nil =>
    simp only [includesChars, startsWith_iff]
    constructor
    · rintro ⟨b, h⟩; exact ⟨[], b, by simpa using h⟩
    · rintro ⟨a, b, h⟩
      have h' := h.symm
      simp only [List.append_eq_nil, List.append_assoc] at h'
      exact ⟨[], by simp [h'.2.1]⟩
  | cons c t ih =>
    simp only [includesChars, Bool.or_eq_true, startsWith_iff, ih]
    constructor
    · rintro (⟨b, h⟩ | ⟨a, b, h⟩)
      · exact ⟨[], b, by simpa using h⟩
      · exact ⟨c :: a, b, by simp [h]⟩
    · rintro ⟨a, b, h⟩
      cases a with
      | nil => left; exact ⟨b, by simpa using h⟩
      | cons x a' =>
        right
        simp only [List.cons_append, List.cons.injEq] at h
        exact ⟨a', b, h.2⟩

theorem includesChars_nil (text : List Char) : includesChars text [] = true := by
  cases text <;> simp [includesChars, startsWith]

theorem matchesPatient_of_name (lower : String → String) (searchTerm filterStatus : String)
    (p : Patient) (h : ∃ s, getProp p "name" = some (JSVal.str s)) :
    matchesPatient lower searchTerm filterStatus p
      = some (dashboardShows lower searchTerm filterStatus p) := by
  obtain ⟨s, hs⟩ := h
  simp [matchesPatient, lowerName, dashboardShows, hs]

theorem filterThrowing_of_total (f : Patient → Option Bool) (g : Patient → Bool) :
    ∀ (c : List Patient), (∀ p ∈ c, f p = some (g p)) →
      filterThrowing f c = some (c.filter g) := by
  intro c
  induction c with
  | nil => intro _; rfl
  | cons p t ih =>
    intro h
    have hp := h p (by simp)
    have ht := ih (fun q hq => h q (by simp [hq]))
    simp only [filterThrowing, hp, ht, List.filter_cons]

/-- C16, as stated, fails: a stored list whose record has no `name` is what
the initial read returns, and on it the filter callback throws, so with empty
search text and status `"All"` the dashboard does not obtain the full list. -/
theorem filteredPatients_counterexample :
    initialPatients (setItem emptyStorage "mq_patients"
        "[\x7b\"id\":\"x1\",\"priority\":\"Stable\"\x7d]") = some (collectionValue namelessList)
    ∧ (filteredPatients asciiLower namelessList "" "All").isNone = true :=
  ⟨rfl, by decide⟩

/-- C16, amended: for every patient list whose records all have a string
`name`, `filteredPatients` is exactly the sublist, in original order, of the
patients whose lower-cased name contains the lower-cased search text and whose
priority equals the filter status or the status is `"All"`; with empty search
text and status `"All"` it is the full list. -/
theorem dashboard_filter (lower : String → String) (patients : List Patient)
    (searchTerm filterStatus : String)
    (hnames : ∀ p ∈ patients, ∃ s, getProp p "name" = some (JSVal.str s))
    (hlow : lower "" = "") :
    filteredPatients lower patients searchTerm filterStatus
      = some (patients.filter (dashboardShows lower searchTerm filterStatus))
    ∧ (patients.filter (dashboardShows lower searchTerm filterStatus)).Sublist patients
    ∧ (∀ p, p ∈ patients.filter (dashboardShows lower searchTerm filterStatus) ↔
        p ∈ patients
        ∧ (∃ s, getProp p "name" = some (JSVal.str s)
            ∧ ∃ a b, (lower s).data = a ++ (lower searchTerm).data ++ b)
        ∧ (filterStatus = "All" ∨ getProp p "priority" = some (JSVal.str filterStatus)))
    ∧ filteredPatients lower patients "" "All" = some patients := by
  have hgen : ∀ st fs, filteredPatients lower patients st fs
      = some (patients.filter (dashboardShows lower st fs)) := by
    intro st fs
    unfold filteredPatients
    exact filterThrowing_of_total _ _ patients
      (fun p hp => matchesPatient_of_name lower st fs p (hnames p hp))
  refine ⟨hgen _ _, List.filter_sublist patients, ?_, ?_⟩
  · intro p
    rw [List.mem_filter]
    apply and_congr_right
    intro hp
    obtain ⟨s, hs⟩ := hnames p hp
    have hpri : priorityIs p filterStatus = true
        ↔ getProp p "priority" = some (JSVal.str filterStatus) := by
      unfold priorityIs
      split
      · next s' h' => simp [h']
      · next h' =>
        constructor
        · intro hf; cases hf
        · intro he; exact absurd he (h' filterStatus)
    simp only [dashboardShows, hs, Bool.and_eq_true, Bool.or_eq_true, beq_iff_eq,
      includesChars_iff, hpri, Option.some.injEq, JSVal.str.injEq, exists_eq_left']
  · rw [hgen]
    congr 1
    rw [List.filter_eq_self]
    intro p hp
    obtain ⟨s, hs⟩ := hnames p hp
    simp [dashboardShows, hs, hlow, includesChars_nil]

/-- Witness for C16: the seeded pair, searched for `MA` among all priorities. -/
theorem dashboard_filter_witness :
    filteredPatients asciiLower seededTwo "MA" "All"
      = some (seededTwo.filter (dashboardShows asciiLower "MA" "All"))
    ∧ (seededTwo.filter (dashboardShows asciiLower "MA" "All")).Sublist seededTwo
    ∧ (∀ p, p ∈ seededTwo.filter (dashboardShows asciiLower "MA" "All") ↔
        p ∈ seededTwo
        ∧ (∃ s, getProp p "name" = some (JSVal.str s)
            ∧ ∃ a b, (asciiLower s).data = a ++ (asciiLower "MA").data ++ b)
        ∧ ("All" = "All" ∨ getProp p "priority" = some (JSVal.str "All")))
    ∧ filteredPatients asciiLower seededTwo "" "All" = some seededTwo :=
  dashboard_filter asciiLower seededTwo "MA" "All"
    (by
      intro p hp
      simp only [seededTwo, seedTransform, formatFrom, twoUsers, List.mem_cons,
        List.mem_singleton, List.not_mem_nil, or_false] at hp
      rcases hp with rfl | rfl
      · exact ⟨_, rfl⟩
      · exact ⟨_, rfl⟩)
    rfl

end TriageStore
